import Mathlib

/-!
Verification of the embedding algorithm of the `syntree_layout` crate
(`src/internal/embedder.rs`, `src/internal/node.rs`, `src/embedding.rs`).

The source tree handed to the embedder by the external `syntree` crate is an
ordered forest of nodes carrying opaque values; the embedder receives the
tree together with a `stringify` and an `emphasize` capability.  We model the
forest as a list of rose trees and translate the four stages of
`Embedder::embed` one by one:

* stage A, `create_initial_embedding_data` / `create_from_node`: a pre-order
  walk (`tree.walk().with_depths().enumerate()`) producing one `InternalNode`
  record per tree node;
* stage B, `apply_children_x_extents`: a fold over the `Event::Up` events of
  `tree.walk_events()`; the `syntree` walker emits `(Event::Up, n)` exactly
  when it ascends back to `n` after finishing `n`'s last child, so the update
  runs once per node that has at least one child, in post-order, and never
  for a childless node;
* stage C, `apply_x_center` / `x_center_layer`: a sweep over the depth layers
  `0 ..= height`, each layer grouping its records by parent and assigning
  `x_center` left to right from the parent's anchor;
* stage D, `transfer_result`: projection to the public `EmbeddedNode`.

Machine integers (`usize`) are modelled as `Nat`; the single subtraction
`x_center - x_extent_of_children / 2` in the Rust source is unsigned, so it
is modelled by truncated `Nat` subtraction, exactly as `usize` subtraction
behaves when it does not underflow (and we prove it never does).  Rust's
`String::len` is the UTF-8 byte length, modelled by `String.utf8ByteSize`.
-/

namespace SyntreeLayout

/-- A node of the source tree: an opaque value together with the ordered list
of child subtrees.  `syntree`'s `Tree` is a forest, modelled as
`List (STree T)`; its top-level nodes are `tree.children()`. -/
inductive STree (T : Type) where
  | node : T → List (STree T) → STree T

mutual

/-- Number of nodes of a subtree. -/
def size {T : Type} : STree T → Nat
  | .node _ cs => 1 + sizeList cs

/-- Number of nodes of a forest. -/
def sizeList {T : Type} : List (STree T) → Nat
  | [] => 0
  | c :: cs => size c + sizeList cs

end

/-- The `InternalNode` record of `src/internal/node.rs` (the `node_id` field,
an opaque handle into the external tree, is represented by the record's
position, which is exactly how the `EmbeddingHelperData` map resolves it). -/
structure InternalNode where
  y_order : Nat
  x_center : Nat
  x_extent : Nat
  x_extent_of_children : Nat
  x_extent_children : Nat
  text : String
  is_emphasized : Bool
  parent : Option Nat
  ord : Nat
deriving Repr, DecidableEq

/-- The public `EmbeddedNode` record of `src/embedding.rs`; compared with
`InternalNode` it drops `x_extent_of_children` and the node handle. -/
structure EmbeddedNode where
  y_order : Nat
  x_center : Nat
  x_extent : Nat
  x_extent_children : Nat
  text : String
  is_emphasized : Bool
  parent : Option Nat
  ord : Nat
deriving Repr, DecidableEq

/-- `Embedder::create_from_node`.  `text.len()` in Rust is the UTF-8 byte
count of the string.  The `parent` argument is the parent's `ord`: the Rust
code obtains it by looking the parent node up in the partially built
`EmbeddingHelperData` (`items.get_by_node_id(&p.id()).map(|n| n.ord)`), and
the pre-order walk guarantees the parent was inserted before its children,
so the lookup always yields the parent's `ord` (`None` for a root). -/
def createFromNode {T : Type} (stringify : T → String) (emphasize : T → Bool)
    (ord depth : Nat) (parent : Option Nat) (value : T) : InternalNode :=
  let text := stringify value
  { y_order := depth
    x_center := 0
    x_extent := text.utf8ByteSize + 1
    x_extent_of_children := text.utf8ByteSize + 1
    x_extent_children := text.utf8ByteSize + 1
    text := text
    is_emphasized := emphasize value
    parent := parent
    ord := ord }

mutual

/-- Stage A on one subtree: the records contributed by the pre-order walk
`tree.walk().with_depths().enumerate()`, starting at ordinal `ord` and depth
`depth`; `Vec::insert(ord, item)` with `ord` equal to the current length is a
push, so the vector lists the records in ordinal order. -/
def buildItems {T : Type} (stringify : T → String) (emphasize : T → Bool) :
    STree T → Nat → Nat → Option Nat → List InternalNode
  | .node v cs, ord, depth, parent =>
    createFromNode stringify emphasize ord depth parent v ::
      buildItemsList stringify emphasize cs (ord + 1) (depth + 1) (some ord)

/-- Stage A on a forest of consecutive siblings. -/
def buildItemsList {T : Type} (stringify : T → String) (emphasize : T → Bool) :
    List (STree T) → Nat → Nat → Option Nat → List InternalNode
  | [], _, _, _ => []
  | c :: cs, ord, depth, parent =>
    buildItems stringify emphasize c ord depth parent ++
      buildItemsList stringify emphasize cs (ord + size c) depth parent

end

/-- The fold `node.children().fold(0, |acc, child| acc + child.x_extent_children)`
of `apply_children_x_extents`, reading each child record (child `ord`s are
consecutive pre-order positions).  A missing record contributes nothing,
mirroring the `if let Some` in the fold. -/
def sumChildrenXExtents {T : Type} : List (STree T) → Nat → List InternalNode → Nat
  | [], _, _ => 0
  | c :: cs, ord, items =>
    (match items[ord]? with
      | some it => it.x_extent_children
      | none => 0) + sumChildrenXExtents cs (ord + size c) items

/-- `items.get_mut_by_node_id` followed by a field update: update the record
at position `ord` if it exists, otherwise leave the vector unchanged. -/
def updateAt (ord : Nat) (f : InternalNode → InternalNode)
    (items : List InternalNode) : List InternalNode :=
  match items[ord]? with
  | some it => items.set ord (f it)
  | none => items

mutual

/-- Stage B on the subtree rooted at position `ord`:
`apply_children_x_extents` processes the `Event::Up` events of
`tree.walk_events()` in walk order.  `syntree` yields `(Event::Up, n)` when
the walker ascends back to `n` from its last child, which happens exactly
once for every node with at least one child and never for a childless node;
all of `n`'s descendants were left (and hence updated) beforehand. -/
def applyChildrenXExtents {T : Type} : STree T → Nat → List InternalNode → List InternalNode
  | .node _ cs, ord, items =>
    let items1 := applyChildrenXExtentsList cs (ord + 1) items
    match cs with
    | [] => items1
    | _ :: _ =>
      let xeoc := sumChildrenXExtents cs (ord + 1) items1
      updateAt ord (fun it =>
        { it with
          x_extent_of_children := xeoc
          x_extent_children := max it.x_extent xeoc }) items1

/-- Stage B on a forest of consecutive siblings. -/
def applyChildrenXExtentsList {T : Type} : List (STree T) → Nat → List InternalNode → List InternalNode
  | [], _, items => items
  | c :: cs, ord, items =>
    applyChildrenXExtentsList cs (ord + size c) (applyChildrenXExtents c ord items)

end

/-- The `node_ids_in_layer` fold of `x_center_layer`: the positions of all
records whose `y_order` equals `layer`, in increasing order. -/
def nodeIdsInLayer (layer : Nat) (items : List InternalNode) : List Nat :=
  (List.range items.length).filter (fun ord =>
    match items[ord]? with
    | some it => it.y_order == layer
    | none => false)

/-- The `parents_in_layer` collection of `x_center_layer`: the `parent` field
of every record of the layer, short-circuiting into the Rust `ok_or` error as
soon as a position has no record (`collect::<Result<Vec<_>>>` semantics). -/
def parentsInLayer (ids : List Nat) (items : List InternalNode) :
    Except String (List (Option Nat)) :=
  match ids with
  | [] => Except.ok []
  | ord :: rest =>
    match items[ord]? with
    | some it =>
      (match parentsInLayer rest items with
        | Except.ok ps => Except.ok (it.parent :: ps)
        | Except.error e => Except.error e)
    | none => Except.error "Expecting existing node"

/-- The `nodes_in_layer_per_parent` filter of `x_center_layer`. -/
def nodesInLayerPerParent (ids : List Nat) (items : List InternalNode)
    (p : Option Nat) : List Nat :=
  ids.filter (fun ord =>
    match items[ord]? with
    | some it => it.parent == p
    | none => false)

/-- The placement loop of `x_center_layer`: walk the group in sibling order,
give each record the center `moving_x_center + x_extent_children / 2` and
advance `moving_x_center` by `x_extent_children`. -/
def placeGroup : List Nat → Nat → List InternalNode → List InternalNode
  | [], _, items => items
  | ord :: rest, moving, items =>
    match items[ord]? with
    | some it =>
      placeGroup rest (moving + it.x_extent_children)
        (items.set ord { it with x_center := moving + it.x_extent_children / 2 })
    | none => placeGroup rest moving items

/-- The `for p in parents_in_layer` loop of `x_center_layer`.  A parent that
several records of the layer share occurs once per child in `ps` and its
group is therefore placed several times, exactly as in the Rust source.  The
anchor of a group with a parent is the unsigned (truncated) subtraction
`parent.x_center - parent.x_extent_of_children / 2`; a group without a
parent (layer 0) is anchored at 0. -/
def processParents (ids : List Nat) :
    List (Option Nat) → List InternalNode → Except String (List InternalNode)
  | [], items => Except.ok items
  | p :: rest, items =>
    let group := nodesInLayerPerParent ids items p
    match p with
    | some parentOrd =>
      (match items[parentOrd]? with
        | some parentItem =>
          processParents ids rest
            (placeGroup group
              (parentItem.x_center - parentItem.x_extent_of_children / 2) items)
        | none => Except.error "Some item expected here!")
    | none => processParents ids rest (placeGroup group 0 items)

/-- `Embedder::x_center_layer`. -/
def xCenterLayer (layer : Nat) (items : List InternalNode) :
    Except String (List InternalNode) :=
  let ids := nodeIdsInLayer layer items
  match parentsInLayer ids items with
  | Except.error e => Except.error e
  | Except.ok ps => processParents ids ps items

/-- The height computation of `apply_x_center`:
`max_by(y_order)` followed by `unwrap_or_default`. -/
def maxYOrder (items : List InternalNode) : Nat :=
  items.foldl (fun acc it => max acc it.y_order) 0

/-- The `for l in 0..height + 1` loop of `apply_x_center`. -/
def applyXCenterAux : List Nat → List InternalNode → Except String (List InternalNode)
  | [], items => Except.ok items
  | l :: ls, items =>
    match xCenterLayer l items with
    | Except.error e => Except.error e
    | Except.ok items1 => applyXCenterAux ls items1

/-- `Embedder::apply_x_center`. -/
def applyXCenter (items : List InternalNode) : Except String (List InternalNode) :=
  applyXCenterAux (List.range (maxYOrder items + 1)) items

/-- Projection of one record, `From<InternalNode> for EmbeddedNode`. -/
def InternalNode.toEmbedded (it : InternalNode) : EmbeddedNode :=
  { y_order := it.y_order
    x_center := it.x_center
    x_extent := it.x_extent
    x_extent_children := it.x_extent_children
    text := it.text
    is_emphasized := it.is_emphasized
    parent := it.parent
    ord := it.ord }

/-- `Embedder::transfer_result`. -/
def transferResult (items : List InternalNode) : List EmbeddedNode :=
  items.map InternalNode.toEmbedded

/-- `Embedder::create_initial_embedding_data`: the multiple-roots guard
(`tree.children().count() > 1`) followed by the stage-A walk over the whole
forest. -/
def createInitialEmbeddingData {T : Type} (stringify : T → String)
    (emphasize : T → Bool) (roots : List (STree T)) :
    Except String (List InternalNode) :=
  if roots.length > 1 then
    Except.error "Currently we support only one root"
  else
    Except.ok (buildItemsList stringify emphasize roots 0 0 none)

/-- `Embedder::embed` up to (and including) stage C: the fully computed
internal records, before the projection of `transfer_result`. -/
def embedItems {T : Type} (stringify : T → String) (emphasize : T → Bool)
    (roots : List (STree T)) : Except String (List InternalNode) :=
  match createInitialEmbeddingData stringify emphasize roots with
  | Except.error e => Except.error e
  | Except.ok items0 =>
    applyXCenter (applyChildrenXExtentsList roots 0 items0)

/-- `Embedder::embed`. -/
def embed {T : Type} (stringify : T → String) (emphasize : T → Bool)
    (roots : List (STree T)) : Except String (List EmbeddedNode) :=
  match embedItems stringify emphasize roots with
  | Except.error e => Except.error e
  | Except.ok items => Except.ok (transferResult items)

/-! Specification-side definitions used to state and prove the properties of
the stages: the intended final values of the width fields, the record a node
carries after stages A and B, and the sums appearing in the centering pass. -/

/-- The `x_extent` of a node value: one more than the UTF-8 byte count of its
text. -/
def xExtentOf {T : Type} (stringify : T → String) (v : T) : Nat :=
  (stringify v).utf8ByteSize + 1

mutual

/-- Intended `x_extent_children` of a subtree after stage B: a childless
node keeps its initial `x_extent`, a node with children gets
`max x_extent (sum of the children's x_extent_children)`. -/
def xec {T : Type} (stringify : T → String) : STree T → Nat
  | .node v cs =>
    match cs with
    | [] => xExtentOf stringify v
    | _ :: _ => max (xExtentOf stringify v) (xecList stringify cs)

/-- Sum of `xec` over a forest of siblings. -/
def xecList {T : Type} (stringify : T → String) : List (STree T) → Nat
  | [] => 0
  | c :: cs => xec stringify c + xecList stringify cs

end

/-- The record of a node after stages A and B: compared with
`createFromNode`, the two children-width fields hold their aggregated
values whenever the node has children, and keep the initial `x_extent`
otherwise. -/
def itemAB {T : Type} (stringify : T → String) (emphasize : T → Bool)
    (v : T) (cs : List (STree T)) (ord depth : Nat) (parent : Option Nat) :
    InternalNode :=
  { y_order := depth
    x_center := 0
    x_extent := xExtentOf stringify v
    x_extent_of_children :=
      match cs with
      | [] => xExtentOf stringify v
      | _ :: _ => xecList stringify cs
    x_extent_children :=
      match cs with
      | [] => xExtentOf stringify v
      | _ :: _ => max (xExtentOf stringify v) (xecList stringify cs)
    text := stringify v
    is_emphasized := emphasize v
    parent := parent
    ord := ord }

mutual

/-- The record list of a subtree after stages A and B. -/
def itemsAB {T : Type} (stringify : T → String) (emphasize : T → Bool) :
    STree T → Nat → Nat → Option Nat → List InternalNode
  | .node v cs, ord, depth, parent =>
    itemAB stringify emphasize v cs ord depth parent ::
      itemsABList stringify emphasize cs (ord + 1) (depth + 1) (some ord)

/-- The record list of a forest of siblings after stages A and B. -/
def itemsABList {T : Type} (stringify : T → String) (emphasize : T → Bool) :
    List (STree T) → Nat → Nat → Option Nat → List InternalNode
  | [], _, _, _ => []
  | c :: cs, ord, depth, parent =>
    itemsAB stringify emphasize c ord depth parent ++
      itemsABList stringify emphasize cs (ord + size c) depth parent

end

/-- Sum of `x_extent_children` over the records whose `parent` field names
position `q`. -/
def childEcSum : List InternalNode → Nat → Nat
  | [], _ => 0
  | it :: L, q =>
    (if it.parent = some q then it.x_extent_children else 0) + childEcSum L q

/-- `x_extent_children` of the record at position `j` (0 outside the list). -/
def ecAt (L : List InternalNode) (j : Nat) : Nat :=
  match L[j]? with
  | some it => it.x_extent_children
  | none => 0

/-- Does the record at position `j` belong to the group of parent `po` inside
layer `y`? -/
def grpAt (L : List InternalNode) (po : Option Nat) (y : Nat) (j : Nat) : Bool :=
  match L[j]? with
  | some it => it.parent == po && it.y_order == y
  | none => false

/-- Does the record at position `j` have parent `q`? -/
def childAt (L : List InternalNode) (q : Nat) (j : Nat) : Bool :=
  match L[j]? with
  | some it => it.parent == some q
  | none => false

/-- Sum of `f` over a list of positions. -/
def idxSum (is : List Nat) (f : Nat → Nat) : Nat := (is.map f).sum

/-- Sum of `x_extent_children` over the records before position `i` that
share parent `po` and layer `y`: the span that the centering pass has already
handed out to the earlier siblings when it reaches position `i`. -/
def precSum (L : List InternalNode) (po : Option Nat) (y : Nat) (i : Nat) : Nat :=
  idxSum ((List.range i).filter (grpAt L po y)) (ecAt L)

/-- The anchor (starting offset) the centering pass computes for the group of
parent `po`: the parent's `x_center - x_extent_of_children / 2` (unsigned
subtraction), or 0 for the rootless group. -/
def anchorOf (L : List InternalNode) (po : Option Nat) : Nat :=
  match po with
  | some q =>
    match L[q]? with
    | some qit => qit.x_center - qit.x_extent_of_children / 2
    | none => 0
  | none => 0

/-- Forget the `x_center` field (used to state that a pass changes nothing
but the centers). -/
def eraseCenter (it : InternalNode) : InternalNode := { it with x_center := 0 }

/-- Two record vectors that agree except possibly on `x_center` fields. -/
def EqExceptCenter (L R : List InternalNode) : Prop :=
  L.map eraseCenter = R.map eraseCenter

/-- The center the layer sweep assigns to the record `it` at position `i` of
a vector whose layer-`(it.y_order)` sweep starts from state `L`: the group
anchor, plus the span already handed to the earlier members of the group,
plus half the record's own span. -/
def layerCenter (L : List InternalNode) (po : Option Nat) (y i ec : Nat) : Nat :=
  anchorOf L po + precSum L po y i + ec / 2

/-- State of the layer-`l` sweep over base state `L` after the groups of the
parents in `S` have been placed: every layer-`l` record whose parent is in
`S` carries its assigned center, every other record is untouched. -/
def PlacedFor (L : List InternalNode) (l : Nat) (S : List (Option Nat))
    (R : List InternalNode) : Prop :=
  ∀ (i : Nat) (it : InternalNode), L[i]? = some it →
    R[i]? = some (if it.y_order = l ∧ it.parent ∈ S
      then { it with
        x_center := layerCenter L it.parent l i it.x_extent_children }
      else it)

/-! List access helpers. -/

theorem getElem?_middle {α : Type} (pre : List α) (a : α) (post : List α) :
    (pre ++ a :: post)[pre.length]? = some a := by
  rw [List.getElem?_append_right (Nat.le_refl _)]
  simp

theorem set_middle {α : Type} (pre : List α) (a b : α) (post : List α) :
    (pre ++ a :: post).set pre.length b = pre ++ b :: post := by
  induction pre with
  | nil => simp
  | cons x xs ih => simp [ih]

/-! Sizes and lengths. -/

mutual

theorem length_buildItems {T : Type} (s : T → String) (e : T → Bool) :
    ∀ (t : STree T) (o d : Nat) (p : Option Nat),
      (buildItems s e t o d p).length = size t
  | .node v cs, o, d, p => by
    simp [buildItems, size, length_buildItemsList s e cs (o + 1) (d + 1) (some o),
      Nat.add_comm]

theorem length_buildItemsList {T : Type} (s : T → String) (e : T → Bool) :
    ∀ (cs : List (STree T)) (o d : Nat) (p : Option Nat),
      (buildItemsList s e cs o d p).length = sizeList cs
  | [], _, _, _ => rfl
  | c :: cs, o, d, p => by
    simp [buildItemsList, sizeList, length_buildItems s e c o d p,
      length_buildItemsList s e cs (o + size c) d p]

end

mutual

theorem length_itemsAB {T : Type} (s : T → String) (e : T → Bool) :
    ∀ (t : STree T) (o d : Nat) (p : Option Nat),
      (itemsAB s e t o d p).length = size t
  | .node v cs, o, d, p => by
    simp [itemsAB, size, length_itemsABList s e cs (o + 1) (d + 1) (some o),
      Nat.add_comm]

theorem length_itemsABList {T : Type} (s : T → String) (e : T → Bool) :
    ∀ (cs : List (STree T)) (o d : Nat) (p : Option Nat),
      (itemsABList s e cs o d p).length = sizeList cs
  | [], _, _, _ => rfl
  | c :: cs, o, d, p => by
    simp [itemsABList, sizeList, length_itemsAB s e c o d p,
      length_itemsABList s e cs (o + size c) d p]

end

/-- A leaf's stage-A record and its stage-AB record coincide. -/
theorem itemAB_leaf {T : Type} (s : T → String) (e : T → Bool)
    (v : T) (o d : Nat) (p : Option Nat) :
    itemAB s e v [] o d p = createFromNode s e o d p v := rfl

/-- The head record of a subtree's stage-AB list carries `xec` as its
`x_extent_children`. -/
theorem itemAB_x_extent_children {T : Type} (s : T → String) (e : T → Bool)
    (v : T) (cs : List (STree T)) (o d : Nat) (p : Option Nat) :
    (itemAB s e v cs o d p).x_extent_children = xec s (.node v cs) := by
  cases cs <;> rfl

/-! Stage B: `apply_children_x_extents` over a stage-A vector produces the
stage-AB records.  The statements are framed with an arbitrary prefix and
suffix because the recursion works on sublists of the full vector at their
absolute positions. -/

theorem sumChildren_itemsABList {T : Type} (s : T → String) (e : T → Bool) :
    ∀ (cs : List (STree T)) (k d : Nat) (p : Option Nat)
      (pre post : List InternalNode), pre.length = k →
      sumChildrenXExtents cs k (pre ++ itemsABList s e cs k d p ++ post) =
        xecList s cs
  | [], _, _, _, _, _, _ => rfl
  | c :: cs, k, d, p, pre, post, hk => by
    subst hk
    cases c with
    | node v cc =>
      have hL : pre ++ itemsABList s e (STree.node v cc :: cs) pre.length d p ++ post =
          pre ++ itemAB s e v cc pre.length d p ::
            (itemsABList s e cc (pre.length + 1) (d + 1) (some pre.length) ++
              (itemsABList s e cs (pre.length + size (STree.node v cc)) d p ++ post)) := by
        simp [itemsABList, itemsAB, List.append_assoc]
      have hlen : (pre ++ itemsAB s e (STree.node v cc) pre.length d p).length =
          pre.length + size (STree.node v cc) := by
        simp [length_itemsAB]
      have htail := sumChildren_itemsABList s e cs
        (pre.length + size (STree.node v cc)) d p
        (pre ++ itemsAB s e (STree.node v cc) pre.length d p) post hlen
      rw [sumChildrenXExtents, hL, getElem?_middle pre _ _]
      have hL2 : pre ++ itemAB s e v cc pre.length d p ::
            (itemsABList s e cc (pre.length + 1) (d + 1) (some pre.length) ++
              (itemsABList s e cs (pre.length + size (STree.node v cc)) d p ++ post)) =
          (pre ++ itemsAB s e (STree.node v cc) pre.length d p) ++
            itemsABList s e cs (pre.length + size (STree.node v cc)) d p ++ post := by
        simp [itemsAB, List.append_assoc]
      rw [hL2, htail]
      show (itemAB s e v cc pre.length d p).x_extent_children + xecList s cs =
        xecList s (STree.node v cc :: cs)
      rw [itemAB_x_extent_children]
      simp [xecList]

theorem updateAt_middle (pre : List InternalNode) (a : InternalNode)
    (post : List InternalNode) (f : InternalNode → InternalNode) :
    updateAt pre.length f (pre ++ a :: post) = pre ++ f a :: post := by
  rw [updateAt, getElem?_middle]
  exact set_middle pre a (f a) post

theorem applyB_node_cons {T : Type} (v : T) (c : STree T) (cs : List (STree T))
    (ord : Nat) (items : List InternalNode) :
    applyChildrenXExtents (STree.node v (c :: cs)) ord items =
      updateAt ord (fun it =>
        { it with
          x_extent_of_children := sumChildrenXExtents (c :: cs) (ord + 1)
            (applyChildrenXExtentsList (c :: cs) (ord + 1) items)
          x_extent_children := max it.x_extent (sumChildrenXExtents (c :: cs) (ord + 1)
            (applyChildrenXExtentsList (c :: cs) (ord + 1) items)) })
        (applyChildrenXExtentsList (c :: cs) (ord + 1) items) := by
  simp [applyChildrenXExtents]

mutual

theorem applyB_buildItems {T : Type} (s : T → String) (e : T → Bool) :
    ∀ (t : STree T) (o d : Nat) (p : Option Nat) (pre post : List InternalNode),
      pre.length = o →
      applyChildrenXExtents t o (pre ++ buildItems s e t o d p ++ post) =
        pre ++ itemsAB s e t o d p ++ post
  | .node v cs, o, d, p, pre, post, hk => by
    subst hk
    cases cs with
    | nil =>
      simp [applyChildrenXExtents, applyChildrenXExtentsList, buildItems, buildItemsList,
        itemsAB, itemsABList, itemAB_leaf]
    | cons c cs =>
      have hitems : pre ++ buildItems s e (STree.node v (c :: cs)) pre.length d p ++ post =
          (pre ++ [createFromNode s e pre.length d p v]) ++
            buildItemsList s e (c :: cs) (pre.length + 1) (d + 1) (some pre.length) ++ post := by
        simp [buildItems, List.append_assoc]
      have hlen1 : (pre ++ [createFromNode s e pre.length d p v]).length = pre.length + 1 := by
        simp
      have h1 := applyB_buildItemsList s e (c :: cs) (pre.length + 1) (d + 1)
        (some pre.length) (pre ++ [createFromNode s e pre.length d p v]) post hlen1
      have hsum := sumChildren_itemsABList s e (c :: cs) (pre.length + 1) (d + 1)
        (some pre.length) (pre ++ [createFromNode s e pre.length d p v]) post hlen1
      rw [applyB_node_cons, hitems, h1]
      have hmid : (pre ++ [createFromNode s e pre.length d p v]) ++
            itemsABList s e (c :: cs) (pre.length + 1) (d + 1) (some pre.length) ++ post =
          pre ++ createFromNode s e pre.length d p v ::
            (itemsABList s e (c :: cs) (pre.length + 1) (d + 1) (some pre.length) ++ post) := by
        simp [List.append_assoc]
      rw [hsum, hmid, updateAt_middle pre _ _ _]
      simp only [itemsAB, List.cons_append, List.append_assoc]
      rfl

theorem applyB_buildItemsList {T : Type} (s : T → String) (e : T → Bool) :
    ∀ (cs : List (STree T)) (o d : Nat) (p : Option Nat) (pre post : List InternalNode),
      pre.length = o →
      applyChildrenXExtentsList cs o (pre ++ buildItemsList s e cs o d p ++ post) =
        pre ++ itemsABList s e cs o d p ++ post
  | [], o, d, p, pre, post, hk => by
    simp [applyChildrenXExtentsList, buildItemsList, itemsABList]
  | c :: cs, o, d, p, pre, post, hk => by
    subst hk
    have hsplit : pre ++ buildItemsList s e (c :: cs) pre.length d p ++ post =
        pre ++ buildItems s e c pre.length d p ++
          (buildItemsList s e cs (pre.length + size c) d p ++ post) := by
      simp [buildItemsList, List.append_assoc]
    have h1 := applyB_buildItems s e c pre.length d p pre
      (buildItemsList s e cs (pre.length + size c) d p ++ post) rfl
    have hlen2 : (pre ++ itemsAB s e c pre.length d p).length = pre.length + size c := by
      simp [length_itemsAB]
    have h2 := applyB_buildItemsList s e cs (pre.length + size c) d p
      (pre ++ itemsAB s e c pre.length d p) post hlen2
    rw [applyChildrenXExtentsList, hsplit, h1]
    have hre : pre ++ itemsAB s e c pre.length d p ++
          (buildItemsList s e cs (pre.length + size c) d p ++ post) =
        (pre ++ itemsAB s e c pre.length d p) ++
          buildItemsList s e cs (pre.length + size c) d p ++ post := by
      simp [List.append_assoc]
    rw [hre, h2]
    simp [itemsABList, List.append_assoc]

end

/-! Structural facts about the stage-AB records. -/

mutual

theorem mem_itemsAB {T : Type} (s : T → String) (e : T → Bool) :
    ∀ (t : STree T) (o d : Nat) (p : Option Nat) (it : InternalNode),
      it ∈ itemsAB s e t o d p →
      (∃ v, it.text = s v ∧ it.is_emphasized = e v) ∧
        it.x_extent = it.text.utf8ByteSize + 1 ∧
        1 ≤ it.x_extent ∧ it.x_extent ≤ it.x_extent_children ∧
        it.x_extent_of_children ≤ it.x_extent_children
  | .node v cs, o, d, p, it, hmem => by
    rw [itemsAB] at hmem
    rcases List.mem_cons.mp hmem with h | h
    · subst h
      refine ⟨⟨v, rfl, rfl⟩, ?_, ?_, ?_, ?_⟩ <;>
        cases cs <;> simp [itemAB, xExtentOf]
    · exact mem_itemsABList s e cs (o + 1) (d + 1) (some o) it h

theorem mem_itemsABList {T : Type} (s : T → String) (e : T → Bool) :
    ∀ (cs : List (STree T)) (o d : Nat) (p : Option Nat) (it : InternalNode),
      it ∈ itemsABList s e cs o d p →
      (∃ v, it.text = s v ∧ it.is_emphasized = e v) ∧
        it.x_extent = it.text.utf8ByteSize + 1 ∧
        1 ≤ it.x_extent ∧ it.x_extent ≤ it.x_extent_children ∧
        it.x_extent_of_children ≤ it.x_extent_children
  | c :: cs, o, d, p, it, hmem => by
    rw [itemsABList] at hmem
    rcases List.mem_append.mp hmem with h | h
    · exact mem_itemsAB s e c o d p it h
    · exact mem_itemsABList s e cs (o + size c) d p it h

end

mutual

theorem ord_itemsAB {T : Type} (s : T → String) (e : T → Bool) :
    ∀ (t : STree T) (o d : Nat) (p : Option Nat) (i : Nat) (it : InternalNode),
      (itemsAB s e t o d p)[i]? = some it → it.ord = o + i
  | .node v cs, o, d, p, i, it, h => by
    rw [itemsAB] at h
    match i with
    | 0 =>
      simp only [List.getElem?_cons_zero, Option.some.injEq] at h
      subst h
      simp [itemAB]
    | j + 1 =>
      simp only [List.getElem?_cons_succ] at h
      have := ord_itemsABList s e cs (o + 1) (d + 1) (some o) j it h
      omega

theorem ord_itemsABList {T : Type} (s : T → String) (e : T → Bool) :
    ∀ (cs : List (STree T)) (o d : Nat) (p : Option Nat) (i : Nat) (it : InternalNode),
      (itemsABList s e cs o d p)[i]? = some it → it.ord = o + i
  | c :: cs, o, d, p, i, it, h => by
    rw [itemsABList] at h
    by_cases hi : i < (itemsAB s e c o d p).length
    · rw [List.getElem?_append_left hi] at h
      exact ord_itemsAB s e c o d p i it h
    · push_neg at hi
      rw [List.getElem?_append_right hi] at h
      have := ord_itemsABList s e cs (o + size c) d p
        (i - (itemsAB s e c o d p).length) it h
      rw [length_itemsAB] at this hi
      omega

end

mutual

theorem parent_itemsAB {T : Type} (s : T → String) (e : T → Bool) :
    ∀ (t : STree T) (o d : Nat) (p : Option Nat) (i : Nat) (it : InternalNode),
      (itemsAB s e t o d p)[i]? = some it →
      (it.parent = p ∧ it.y_order = d) ∨
        (∃ q qit, it.parent = some q ∧ o ≤ q ∧ q < o + i ∧
          (itemsAB s e t o d p)[q - o]? = some qit ∧ qit.y_order + 1 = it.y_order)
  | .node v cs, o, d, p, i, it, h => by
    rw [itemsAB] at h
    match i with
    | 0 =>
      simp only [List.getElem?_cons_zero, Option.some.injEq] at h
      subst h
      exact Or.inl ⟨rfl, rfl⟩
    | j + 1 =>
      simp only [List.getElem?_cons_succ] at h
      rcases parent_itemsABList s e cs (o + 1) (d + 1) (some o) j it h with
        ⟨hp, hy⟩ | ⟨q, qit, hp, hq1, hq2, hget, hy⟩
      · refine Or.inr ⟨o, itemAB s e v cs o d p, hp, Nat.le_refl o, by omega, ?_, ?_⟩
        · rw [itemsAB]
          simp
        · simp [itemAB, hy]
      · refine Or.inr ⟨q, qit, hp, by omega, by omega, ?_, hy⟩
        rw [itemsAB]
        have hqo : q - o = (q - (o + 1)) + 1 := by omega
        rw [hqo]
        simpa using hget

theorem parent_itemsABList {T : Type} (s : T → String) (e : T → Bool) :
    ∀ (cs : List (STree T)) (o d : Nat) (p : Option Nat) (i : Nat) (it : InternalNode),
      (itemsABList s e cs o d p)[i]? = some it →
      (it.parent = p ∧ it.y_order = d) ∨
        (∃ q qit, it.parent = some q ∧ o ≤ q ∧ q < o + i ∧
          (itemsABList s e cs o d p)[q - o]? = some qit ∧ qit.y_order + 1 = it.y_order)
  | c :: cs, o, d, p, i, it, h => by
    rw [itemsABList] at h
    by_cases hi : i < (itemsAB s e c o d p).length
    · rw [List.getElem?_append_left hi] at h
      rcases parent_itemsAB s e c o d p i it h with
        ⟨hp, hy⟩ | ⟨q, qit, hp, hq1, hq2, hget, hy⟩
      · exact Or.inl ⟨hp, hy⟩
      · refine Or.inr ⟨q, qit, hp, hq1, hq2, ?_, hy⟩
        rw [itemsABList, List.getElem?_append_left (by omega : q - o < (itemsAB s e c o d p).length)]
        exact hget
    · push_neg at hi
      rw [List.getElem?_append_right hi] at h
      have hlen : (itemsAB s e c o d p).length = size c := length_itemsAB s e c o d p
      rcases parent_itemsABList s e cs (o + size c) d p
        (i - (itemsAB s e c o d p).length) it h with
        ⟨hp, hy⟩ | ⟨q, qit, hp, hq1, hq2, hget, hy⟩
      · exact Or.inl ⟨hp, hy⟩
      · refine Or.inr ⟨q, qit, hp, by omega, by omega, ?_, hy⟩
        rw [itemsABList, List.getElem?_append_right (by omega : (itemsAB s e c o d p).length ≤ q - o)]
        have : q - o - (itemsAB s e c o d p).length = q - (o + size c) := by omega
        rw [this]
        exact hget

end

/-! Sums of `x_extent_children` over the records naming a given parent
position, and their relation to `x_extent_of_children`. -/

theorem childEcSum_append (A B : List InternalNode) (q : Nat) :
    childEcSum (A ++ B) q = childEcSum A q + childEcSum B q := by
  induction A with
  | nil => simp [childEcSum]
  | cons a A ih => rw [List.cons_append, childEcSum, childEcSum, ih, Nat.add_assoc]

theorem childEcSum_lower (L : List InternalNode) (q : Nat) :
    ∀ (j : Nat) (jt : InternalNode), L[j]? = some jt → jt.parent = some q →
      jt.x_extent_children ≤ childEcSum L q := by
  induction L with
  | nil => intro j jt h; simp at h
  | cons a A ih =>
    intro j jt h hp
    match j with
    | 0 =>
      simp only [List.getElem?_cons_zero, Option.some.injEq] at h
      subst h
      rw [childEcSum, if_pos hp]
      omega
    | j + 1 =>
      simp only [List.getElem?_cons_succ] at h
      have := ih j jt h hp
      rw [childEcSum]
      omega

mutual

theorem childEcSum_out_itemsAB {T : Type} (s : T → String) (e : T → Bool) :
    ∀ (t : STree T) (o d : Nat) (p : Option Nat) (q : Nat), p ≠ some q →
      (q < o ∨ o + size t ≤ q) → childEcSum (itemsAB s e t o d p) q = 0
  | .node v cs, o, d, p, q, hp, hq => by
    have hsz : size (STree.node v cs) = 1 + sizeList cs := by rw [size]
    rw [itemsAB, childEcSum]
    have hpar : (itemAB s e v cs o d p).parent = p := rfl
    rw [hpar, if_neg hp,
      childEcSum_out_itemsABList s e cs (o + 1) (d + 1) (some o) q
        (by rcases hq with h | h <;> · intro hc; injection hc; omega)
        (by omega)]

theorem childEcSum_out_itemsABList {T : Type} (s : T → String) (e : T → Bool) :
    ∀ (cs : List (STree T)) (o d : Nat) (p : Option Nat) (q : Nat), p ≠ some q →
      (q < o ∨ o + sizeList cs ≤ q) → childEcSum (itemsABList s e cs o d p) q = 0
  | [], _, _, _, _, _, _ => rfl
  | c :: cs, o, d, p, q, hp, hq => by
    have hsz : sizeList (c :: cs) = size c + sizeList cs := by rw [sizeList]
    rw [itemsABList, childEcSum_append,
      childEcSum_out_itemsAB s e c o d p q hp (by omega),
      childEcSum_out_itemsABList s e cs (o + size c) d p q hp (by omega)]

end

theorem childEcSum_top {T : Type} (s : T → String) (e : T → Bool) :
    ∀ (cs : List (STree T)) (o d q : Nat), q < o →
      childEcSum (itemsABList s e cs o d (some q)) q = xecList s cs
  | [], _, _, _, _ => by simp [itemsABList, childEcSum, xecList]
  | c :: cs, o, d, q, hq => by
    cases c with
    | node v cc =>
      rw [itemsABList, childEcSum_append, itemsAB, childEcSum]
      have hpar : (itemAB s e v cc o d (some q)).parent = some q := rfl
      rw [hpar, if_pos rfl,
        childEcSum_out_itemsABList s e cc (o + 1) (d + 1) (some o) q
          (by intro hc; injection hc; omega) (Or.inl (by omega)),
        childEcSum_top s e cs (o + size (STree.node v cc)) d q (by omega)]
      have hec : (itemAB s e v cc o d (some q)).x_extent_children =
          xec s (STree.node v cc) := itemAB_x_extent_children s e v cc o d (some q)
      rw [hec]
      simp [xecList]

mutual

theorem childEcSum_at_itemsAB {T : Type} (s : T → String) (e : T → Bool) :
    ∀ (t : STree T) (o d : Nat) (p : Option Nat) (i : Nat) (it : InternalNode),
      (itemsAB s e t o d p)[i]? = some it →
      (∀ q', p = some q' → q' < o) →
      childEcSum (itemsAB s e t o d p) (o + i) = 0 ∨
        childEcSum (itemsAB s e t o d p) (o + i) = it.x_extent_of_children
  | .node v cs, o, d, p, i, it, h, hp => by
    rw [itemsAB] at h ⊢
    rw [childEcSum]
    have hpar : (itemAB s e v cs o d p).parent = p := rfl
    have hne : p ≠ some (o + i) := by
      intro hc
      have := hp (o + i) hc
      omega
    rw [hpar, if_neg hne, Nat.zero_add]
    match i with
    | 0 =>
      simp only [List.getElem?_cons_zero, Option.some.injEq] at h
      subst h
      cases cs with
      | nil => exact Or.inl rfl
      | cons c cs =>
        refine Or.inr ?_
        simp only [Nat.add_zero]
        rw [childEcSum_top s e (c :: cs) (o + 1) (d + 1) o (by omega)]
        rfl
    | j + 1 =>
      simp only [List.getElem?_cons_succ] at h
      have := childEcSum_at_itemsABList s e cs (o + 1) (d + 1) (some o) j it h
        (by intro q' hq'; injection hq'; omega)
      have harith : o + 1 + j = o + (j + 1) := by omega
      rw [harith] at this
      exact this

theorem childEcSum_at_itemsABList {T : Type} (s : T → String) (e : T → Bool) :
    ∀ (cs : List (STree T)) (o d : Nat) (p : Option Nat) (i : Nat) (it : InternalNode),
      (itemsABList s e cs o d p)[i]? = some it →
      (∀ q', p = some q' → q' < o) →
      childEcSum (itemsABList s e cs o d p) (o + i) = 0 ∨
        childEcSum (itemsABList s e cs o d p) (o + i) = it.x_extent_of_children
  | c :: cs, o, d, p, i, it, h, hp => by
    rw [itemsABList] at h ⊢
    rw [childEcSum_append]
    have hlen : (itemsAB s e c o d p).length = size c := length_itemsAB s e c o d p
    have hpne : p ≠ some (o + i) := by
      intro hc
      have := hp (o + i) hc
      omega
    by_cases hi : i < (itemsAB s e c o d p).length
    · rw [List.getElem?_append_left hi] at h
      rw [childEcSum_out_itemsABList s e cs (o + size c) d p (o + i) hpne
        (Or.inl (by omega))]
      have := childEcSum_at_itemsAB s e c o d p i it h hp
      omega
    · push_neg at hi
      rw [List.getElem?_append_right hi] at h
      rw [childEcSum_out_itemsAB s e c o d p (o + i) hpne (Or.inr (by omega))]
      have := childEcSum_at_itemsABList s e cs (o + size c) d p
        (i - (itemsAB s e c o d p).length) it h
        (by intro q' hq'; have := hp q' hq'; omega)
      have harith : o + size c + (i - (itemsAB s e c o d p).length) = o + i := by omega
      rw [harith] at this
      omega

end

/-- The head record of the stage-AB list of a non-empty sibling forest. -/
theorem head_itemsABList {T : Type} (s : T → String) (e : T → Bool)
    (c : STree T) (cs : List (STree T)) (o d : Nat) (p : Option Nat) :
    ∃ jt, (itemsABList s e (c :: cs) o d p)[0]? = some jt ∧
      jt.parent = p ∧ jt.y_order = d := by
  cases c with
  | node v cc =>
    refine ⟨itemAB s e v cc o d p, ?_, rfl, rfl⟩
    rw [itemsABList, itemsAB]
    simp

mutual

theorem leafOrChild_itemsAB {T : Type} (s : T → String) (e : T → Bool) :
    ∀ (t : STree T) (o d : Nat) (p : Option Nat) (i : Nat) (it : InternalNode),
      (itemsAB s e t o d p)[i]? = some it →
      (it.x_extent_of_children = it.x_extent ∧ it.x_extent_children = it.x_extent) ∨
        (∃ (j : Nat) (jt : InternalNode),
          (itemsAB s e t o d p)[j]? = some jt ∧ jt.parent = some (o + i))
  | .node v cs, o, d, p, i, it, h => by
    rw [itemsAB] at h ⊢
    match i with
    | 0 =>
      simp only [List.getElem?_cons_zero, Option.some.injEq] at h
      subst h
      cases cs with
      | nil => exact Or.inl ⟨rfl, rfl⟩
      | cons c cs =>
        obtain ⟨jt, hj, hjp, _⟩ := head_itemsABList s e c cs (o + 1) (d + 1) (some o)
        refine Or.inr ⟨1, jt, ?_, by rw [hjp, Nat.add_zero]⟩
        simpa using hj
    | j + 1 =>
      simp only [List.getElem?_cons_succ] at h
      rcases leafOrChild_itemsABList s e cs (o + 1) (d + 1) (some o) j it h with
        hleft | ⟨j', jt, hj, hjp⟩
      · exact Or.inl hleft
      · refine Or.inr ⟨j' + 1, jt, by simpa using hj, ?_⟩
        rw [hjp]
        have harith : o + 1 + j = o + (j + 1) := by omega
        rw [harith]

theorem leafOrChild_itemsABList {T : Type} (s : T → String) (e : T → Bool) :
    ∀ (cs : List (STree T)) (o d : Nat) (p : Option Nat) (i : Nat) (it : InternalNode),
      (itemsABList s e cs o d p)[i]? = some it →
      (it.x_extent_of_children = it.x_extent ∧ it.x_extent_children = it.x_extent) ∨
        (∃ (j : Nat) (jt : InternalNode),
          (itemsABList s e cs o d p)[j]? = some jt ∧ jt.parent = some (o + i))
  | c :: cs, o, d, p, i, it, h => by
    rw [itemsABList] at h ⊢
    have hlen : (itemsAB s e c o d p).length = size c := length_itemsAB s e c o d p
    by_cases hi : i < (itemsAB s e c o d p).length
    · rw [List.getElem?_append_left hi] at h
      rcases leafOrChild_itemsAB s e c o d p i it h with hleft | ⟨j, jt, hj, hjp⟩
      · exact Or.inl hleft
      · have hjlt : j < (itemsAB s e c o d p).length := by
          rcases List.getElem?_eq_some.mp hj with ⟨hlt, _⟩
          exact hlt
        exact Or.inr ⟨j, jt, by rw [List.getElem?_append_left hjlt]; exact hj, hjp⟩
    · push_neg at hi
      rw [List.getElem?_append_right hi] at h
      rcases leafOrChild_itemsABList s e cs (o + size c) d p
        (i - (itemsAB s e c o d p).length) it h with hleft | ⟨j, jt, hj, hjp⟩
      · exact Or.inl hleft
      · refine Or.inr ⟨j + (itemsAB s e c o d p).length, jt, ?_, ?_⟩
        · rw [List.getElem?_append_right (by omega : (itemsAB s e c o d p).length ≤ j + (itemsAB s e c o d p).length)]
          have harith : j + (itemsAB s e c o d p).length - (itemsAB s e c o d p).length = j := by
            omega
          rw [harith]
          exact hj
        · rw [hjp]
          have harith : o + size c + (i - (itemsAB s e c o d p).length) = o + i := by omega
          rw [harith]

end

/-! Infrastructure for the centering pass: vectors that agree except on
`x_center`, and sums over index lists. -/

theorem eraseCenter_fields {a b : InternalNode} (h : eraseCenter a = eraseCenter b) :
    a.y_order = b.y_order ∧ a.x_extent = b.x_extent ∧
      a.x_extent_of_children = b.x_extent_of_children ∧
      a.x_extent_children = b.x_extent_children ∧ a.text = b.text ∧
      a.is_emphasized = b.is_emphasized ∧ a.parent = b.parent ∧ a.ord = b.ord := by
  cases a
  cases b
  simp only [eraseCenter, InternalNode.mk.injEq] at h
  obtain ⟨h1, -, h3, h4, h5, h6, h7, h8, h9⟩ := h
  exact ⟨h1, h3, h4, h5, h6, h7, h8, h9⟩

theorem eraseCenter_withCenter {a b : InternalNode}
    (h : eraseCenter a = eraseCenter b) (c : Nat) :
    { a with x_center := c } = { b with x_center := c } := by
  cases a
  cases b
  simp only [eraseCenter, InternalNode.mk.injEq] at h
  obtain ⟨h1, -, h3, h4, h5, h6, h7, h8, h9⟩ := h
  simp only [InternalNode.mk.injEq]
  exact ⟨h1, by trivial, h3, h4, h5, h6, h7, h8, h9⟩

theorem EqExceptCenter.refl (L : List InternalNode) : EqExceptCenter L L := rfl

theorem EqExceptCenter.trans {L R S : List InternalNode}
    (h1 : EqExceptCenter L R) (h2 : EqExceptCenter R S) : EqExceptCenter L S :=
  Eq.trans h1 h2

theorem EqExceptCenter.length_eq {L R : List InternalNode}
    (h : EqExceptCenter L R) : L.length = R.length := by
  have := congrArg List.length h
  simpa using this

theorem EqExceptCenter.get {L R : List InternalNode} (h : EqExceptCenter L R)
    {i : Nat} {it : InternalNode} (hit : L[i]? = some it) :
    ∃ it', R[i]? = some it' ∧ eraseCenter it' = eraseCenter it := by
  have hm : Option.map eraseCenter L[i]? = Option.map eraseCenter R[i]? := by
    have := congrArg (fun l => l[i]?) h
    simpa using this
  rw [hit] at hm
  cases hR : R[i]? with
  | none =>
    rw [hR] at hm
    simp at hm
  | some it' =>
    rw [hR] at hm
    simp only [Option.map_some'] at hm
    exact ⟨it', rfl, (Option.some.inj hm).symm⟩

theorem set_getElem?_self {α : Type} :
    ∀ (l : List α) (i : Nat) (a : α), l[i]? = some a → l.set i a = l := by
  intro l
  induction l with
  | nil => intro i a h; simp at h
  | cons x xs ih =>
    intro i a h
    match i with
    | 0 =>
      simp only [List.getElem?_cons_zero, Option.some.injEq] at h
      subst h
      rfl
    | i + 1 =>
      simp only [List.getElem?_cons_succ] at h
      simp [List.set, ih i a h]

theorem EqExceptCenter.set_center {L : List InternalNode} {i : Nat}
    {it : InternalNode} (hit : L[i]? = some it) (c : Nat) :
    EqExceptCenter L (L.set i { it with x_center := c }) := by
  unfold EqExceptCenter
  rw [List.map_set]
  have h1 : eraseCenter { it with x_center := c } = eraseCenter it := rfl
  rw [h1]
  have h2 : (L.map eraseCenter)[i]? = some (eraseCenter it) := by
    simp [List.getElem?_map, hit]
  rw [set_getElem?_self _ _ _ h2]

theorem EqExceptCenter.ecAt {L R : List InternalNode} (h : EqExceptCenter L R) :
    ∀ j, ecAt R j = ecAt L j := by
  intro j
  cases hL : L[j]? with
  | some it =>
    obtain ⟨it', hR', he⟩ := h.get hL
    unfold SyntreeLayout.ecAt
    rw [hL, hR']
    exact (eraseCenter_fields he).2.2.2.1
  | none =>
    have hlen := h.length_eq
    have hR : R[j]? = none := by
      rw [List.getElem?_eq_none_iff] at hL ⊢
      omega
    unfold SyntreeLayout.ecAt
    rw [hL, hR]

theorem EqExceptCenter.grpAt {L R : List InternalNode} (h : EqExceptCenter L R) :
    ∀ po y j, grpAt R po y j = grpAt L po y j := by
  intro po y j
  cases hL : L[j]? with
  | some it =>
    obtain ⟨it', hR', he⟩ := h.get hL
    obtain ⟨hy, _, _, _, _, _, hp, _⟩ := eraseCenter_fields he
    unfold SyntreeLayout.grpAt
    rw [hL, hR']
    show (it'.parent == po && it'.y_order == y) = (it.parent == po && it.y_order == y)
    rw [hy, hp]
  | none =>
    have hlen := h.length_eq
    have hR : R[j]? = none := by
      rw [List.getElem?_eq_none_iff] at hL ⊢
      omega
    unfold SyntreeLayout.grpAt
    rw [hL, hR]

theorem EqExceptCenter.precSum {L R : List InternalNode} (h : EqExceptCenter L R) :
    ∀ po y i, precSum R po y i = precSum L po y i := by
  intro po y i
  unfold SyntreeLayout.precSum
  have h1 : SyntreeLayout.grpAt R po y = SyntreeLayout.grpAt L po y :=
    funext (h.grpAt po y)
  have h2 : SyntreeLayout.ecAt R = SyntreeLayout.ecAt L := funext h.ecAt
  rw [h1, h2]

theorem EqExceptCenter.childEcSum {L R : List InternalNode}
    (h : EqExceptCenter L R) (q : Nat) : childEcSum R q = childEcSum L q := by
  induction L generalizing R with
  | nil =>
    cases R with
    | nil => rfl
    | cons b R => exact absurd h.length_eq (by simp)
  | cons a L ih =>
    cases R with
    | nil => exact absurd h.length_eq (by simp)
    | cons b R =>
      have hcons := h
      unfold EqExceptCenter at hcons
      simp only [List.map_cons, List.cons.injEq] at hcons
      obtain ⟨hhd, htl⟩ := hcons
      obtain ⟨_, _, _, hec, _, _, hp, _⟩ := eraseCenter_fields hhd
      rw [SyntreeLayout.childEcSum, SyntreeLayout.childEcSum, ih htl, hp, hec]

theorem idxSum_nil (f : Nat → Nat) : idxSum [] f = 0 := rfl

theorem idxSum_append (xs ys : List Nat) (f : Nat → Nat) :
    idxSum (xs ++ ys) f = idxSum xs f + idxSum ys f := by
  simp [idxSum]

theorem idxSum_cons (x : Nat) (xs : List Nat) (f : Nat → Nat) :
    idxSum (x :: xs) f = f x + idxSum xs f := by
  simp [idxSum]

theorem range_filter_lt_and (C : Nat → Bool) :
    ∀ (n i : Nat), i ≤ n →
      (List.range n).filter (fun j => decide (j < i) && C j) =
        (List.range i).filter C := by
  intro n
  induction n with
  | zero =>
    intro i hi
    interval_cases i
    rfl
  | succ n ih =>
    intro i hi
    rcases Nat.lt_or_ge i (n + 1) with hlt | hge
    · have hin : i ≤ n := by omega
      have hfalse : decide (n < i) = false := by
        simp only [decide_eq_false_iff_not]
        omega
      rw [List.range_succ, List.filter_append, ih i hin]
      simp [List.filter, hfalse]
    · have hieq : i = n + 1 := by omega
      subst hieq
      apply List.filter_congr
      intro j hj
      rw [List.mem_range] at hj
      simp [Nat.lt_of_lt_of_le hj (Nat.le_refl _), hj]

/-! The group a layer forms for one parent, and the placement loop. -/

/-- `nodes_in_layer_per_parent` is the filter of the full position range by
the combined layer/parent condition. -/
theorem group_eq_filter (l : Nat) (L : List InternalNode) (p : Option Nat) :
    nodesInLayerPerParent (nodeIdsInLayer l L) L p =
      (List.range L.length).filter (grpAt L p l) := by
  unfold nodesInLayerPerParent nodeIdsInLayer
  rw [List.filter_filter]
  apply List.filter_congr
  intro j _
  unfold grpAt
  cases hj : L[j]? with
  | some it => rfl
  | none => rfl

theorem group_sorted (l : Nat) (L : List InternalNode) (p : Option Nat) :
    (nodesInLayerPerParent (nodeIdsInLayer l L) L p).Pairwise (· < ·) := by
  rw [group_eq_filter]
  exact (List.sorted_lt_range L.length).filter _

theorem group_mem (l : Nat) (L : List InternalNode) (p : Option Nat) (i : Nat) :
    i ∈ nodesInLayerPerParent (nodeIdsInLayer l L) L p ↔
      i < L.length ∧ grpAt L p l i = true := by
  rw [group_eq_filter, List.mem_filter, List.mem_range]

theorem grpAt_iff (L : List InternalNode) (po : Option Nat) (y i : Nat) :
    grpAt L po y i = true ↔
      ∃ it, L[i]? = some it ∧ it.parent = po ∧ it.y_order = y := by
  unfold grpAt
  cases h : L[i]? with
  | some it =>
    simp only [Bool.and_eq_true, beq_iff_eq]
    constructor
    · intro ⟨h1, h2⟩
      exact ⟨it, rfl, h1, h2⟩
    · intro ⟨it', h', h1, h2⟩
      cases h'
      exact ⟨h1, h2⟩
  | none => simp

theorem placeGroup_spec :
    ∀ (g : List Nat) (m : Nat) (M : List InternalNode),
      g.Pairwise (· < ·) → (∀ i ∈ g, i < M.length) →
      (placeGroup g m M).length = M.length ∧
      (∀ j, j ∉ g → (placeGroup g m M)[j]? = M[j]?) ∧
      (∀ i ∈ g, ∃ it, M[i]? = some it ∧
        (placeGroup g m M)[i]? = some { it with
          x_center := m + idxSum (g.filter (fun j => decide (j < i))) (ecAt M) +
            it.x_extent_children / 2 })
  | [], m, M, _, _ => by
    refine ⟨rfl, fun j _ => rfl, fun i hi => absurd hi (by simp)⟩
  | i0 :: g, m, M, hsort, hrange => by
    have hi0 : i0 < M.length := hrange i0 (by simp)
    have hit0 : M[i0]? = some M[i0] := List.getElem?_eq_getElem hi0
    set it0 := M[i0] with hit0def
    have hgt : ∀ j ∈ g, i0 < j := fun j hj => (List.pairwise_cons.mp hsort).1 j hj
    have hnotmem : i0 ∉ g := fun hc => absurd (hgt i0 hc) (by omega)
    set M1 := M.set i0 { it0 with x_center := m + it0.x_extent_children / 2 } with hM1
    have hEC : EqExceptCenter M M1 := EqExceptCenter.set_center hit0 _
    have hlen1 : M1.length = M.length := by simp [hM1]
    have ih := placeGroup_spec g (m + it0.x_extent_children) M1
      (List.pairwise_cons.mp hsort).2
      (fun i hi => by rw [hlen1]; exact hrange i (by simp [hi]))
    have hunfold : placeGroup (i0 :: g) m M =
        placeGroup g (m + it0.x_extent_children) M1 := by
      rw [placeGroup, hit0]
    obtain ⟨ihlen, ihout, ihmem⟩ := ih
    refine ⟨by rw [hunfold, ihlen, hlen1], ?_, ?_⟩
    · intro j hj
      have hj0 : j ≠ i0 := fun hc => hj (hc ▸ List.mem_cons_self i0 g)
      have hjg : j ∉ g := fun hc => hj (List.mem_cons_of_mem i0 hc)
      rw [hunfold, ihout j hjg, hM1, List.getElem?_set_ne (fun hc => hj0 hc.symm)]
    · intro i hi
      rcases List.mem_cons.mp hi with hieq | hig
      · subst hieq
        refine ⟨it0, hit0, ?_⟩
        rw [hunfold, ihout i hnotmem, hM1, List.getElem?_set_self hi0]
        have hfilter : (i :: g).filter (fun j => decide (j < i)) = [] := by
          rw [List.filter_eq_nil_iff]
          intro a ha
          rcases List.mem_cons.mp ha with h | h
          · subst h
            simp
          · have := hgt a h
            simp
            omega
        rw [hfilter, idxSum_nil, Nat.add_zero]
      · have hii0 : i0 < i := hgt i hig
        obtain ⟨it1, hit1, hres⟩ := ihmem i hig
        have hM1i : M1[i]? = M[i]? := by
          rw [hM1, List.getElem?_set_ne (by omega : i0 ≠ i)]
        rw [hM1i] at hit1
        refine ⟨it1, hit1, ?_⟩
        rw [hunfold, hres]
        have hecfun : SyntreeLayout.ecAt M1 = SyntreeLayout.ecAt M :=
          funext hEC.ecAt
        have hfilter : (i0 :: g).filter (fun j => decide (j < i)) =
            i0 :: g.filter (fun j => decide (j < i)) := by
          rw [List.filter_cons]
          simp [hii0]
        have heci0 : SyntreeLayout.ecAt M i0 = it0.x_extent_children := by
          unfold SyntreeLayout.ecAt
          rw [hit0]
        have harith : m + it0.x_extent_children +
              idxSum (g.filter (fun j => decide (j < i))) (SyntreeLayout.ecAt M) +
              it1.x_extent_children / 2 =
            m + idxSum ((i0 :: g).filter (fun j => decide (j < i)))
              (SyntreeLayout.ecAt M) + it1.x_extent_children / 2 := by
          rw [hfilter, idxSum_cons, heci0]
          omega
        rw [hecfun, harith]

/-- `placeGroup` changes only `x_center` fields. -/
theorem EC_placeGroup : ∀ (g : List Nat) (m : Nat) (M : List InternalNode),
    EqExceptCenter M (placeGroup g m M)
  | [], _, _ => EqExceptCenter.refl _
  | i0 :: g, m, M => by
    rw [placeGroup]
    cases hit : M[i0]? with
    | some it =>
      exact (EqExceptCenter.set_center hit _).trans (EC_placeGroup g _ _)
    | none => exact EC_placeGroup g m M

/-- The group filter only reads fields preserved by `EqExceptCenter`. -/
theorem group_EC {L R : List InternalNode} (h : EqExceptCenter L R)
    (ids : List Nat) (p : Option Nat) :
    nodesInLayerPerParent ids R p = nodesInLayerPerParent ids L p := by
  unfold nodesInLayerPerParent
  apply List.filter_congr
  intro ord _
  cases hL : L[ord]? with
  | some it =>
    obtain ⟨it', hR', he⟩ := h.get hL
    obtain ⟨_, _, _, _, _, _, hp, _⟩ := eraseCenter_fields he
    rw [hR']
    show (it'.parent == p) = (it.parent == p)
    rw [hp]
  | none =>
    have hlen := h.length_eq
    have hR : R[ord]? = none := by
      rw [List.getElem?_eq_none_iff] at hL ⊢
      omega
    rw [hR]

/-- For a member of a layer group, the span handed to the earlier group
members is `precSum`. -/
theorem group_precSum (l : Nat) (L : List InternalNode) (p : Option Nat)
    (i : Nat) (hi : i ≤ L.length) :
    idxSum ((nodesInLayerPerParent (nodeIdsInLayer l L) L p).filter
      (fun j => decide (j < i))) (ecAt L) = precSum L p l i := by
  rw [group_eq_filter, List.filter_filter, range_filter_lt_and _ _ _ hi]
  rfl

/-- A position of `node_ids_in_layer` holds a record of that layer, and
conversely. -/
theorem ids_mem (l : Nat) (L : List InternalNode) (i : Nat) :
    i ∈ nodeIdsInLayer l L ↔
      ∃ it, L[i]? = some it ∧ it.y_order = l := by
  unfold nodeIdsInLayer
  rw [List.mem_filter, List.mem_range]
  cases h : L[i]? with
  | some it =>
    have hlt : i < L.length := (List.getElem?_eq_some_iff.mp h).1
    simp only [beq_iff_eq]
    constructor
    · intro ⟨_, hy⟩
      exact ⟨it, rfl, hy⟩
    · intro ⟨it', h', hy⟩
      cases h'
      exact ⟨hlt, hy⟩
  | none =>
    constructor
    · intro ⟨hlt, hfalse⟩
      simp at hfalse
    · intro ⟨it', h', _⟩
      cases h'

/-- `parents_in_layer` succeeds when every collected position holds a
record, and the collected parents are exactly the parents of the layer. -/
theorem parentsInLayer_ok :
    ∀ (ids : List Nat) (L : List InternalNode),
      (∀ i ∈ ids, ∃ it : InternalNode, L[i]? = some it) →
      ∃ ps, parentsInLayer ids L = Except.ok ps ∧
        (∀ p ∈ ps, ∃ i it, i ∈ ids ∧ L[i]? = some it ∧ it.parent = p) ∧
        (∀ i ∈ ids, ∀ it : InternalNode, L[i]? = some it → it.parent ∈ ps)
  | [], L, _ => ⟨[], rfl, by simp, by simp⟩
  | i0 :: ids, L, hall => by
    obtain ⟨it0, hit0⟩ := hall i0 (by simp)
    obtain ⟨ps, hps, hback, hfwd⟩ := parentsInLayer_ok ids L
      (fun i hi => hall i (List.mem_cons_of_mem i0 hi))
    refine ⟨it0.parent :: ps, ?_, ?_, ?_⟩
    · rw [parentsInLayer, hit0, hps]
    · intro p hp
      rcases List.mem_cons.mp hp with h | h
      · exact ⟨i0, it0, by simp, hit0, h.symm⟩
      · obtain ⟨i, it, hi, hit, hpar⟩ := hback p h
        exact ⟨i, it, List.mem_cons_of_mem i0 hi, hit, hpar⟩
    · intro i hi it hit
      rcases List.mem_cons.mp hi with h | h
      · subst h
        rw [hit0] at hit
        cases hit
        exact List.mem_cons_self _ _
      · exact List.mem_cons_of_mem _ (hfwd i h it hit)

/-- Unfolding equation of the `for p in parents_in_layer` loop. -/
theorem processParents_cons (ids : List Nat) (p : Option Nat)
    (ps : List (Option Nat)) (items : List InternalNode) :
    processParents ids (p :: ps) items =
      (let group := nodesInLayerPerParent ids items p
       match p with
       | some parentOrd =>
         (match items[parentOrd]? with
           | some parentItem =>
             processParents ids ps
               (placeGroup group
                 (parentItem.x_center - parentItem.x_extent_of_children / 2) items)
           | none => Except.error "Some item expected here!")
       | none => processParents ids ps (placeGroup group 0 items)) := rfl

/-- One full `for p in parents_in_layer` loop: starting from a partially
placed state, it extends the set of placed parent groups by `ps`. -/
theorem processParents_spec (L : List InternalNode) (l : Nat) :
    ∀ (ps S : List (Option Nat)) (R : List InternalNode),
      (∀ p ∈ ps, ∀ q : Nat, p = some q →
        ∃ qit : InternalNode, L[q]? = some qit ∧ qit.y_order ≠ l) →
      EqExceptCenter L R → PlacedFor L l S R →
      ∃ R', processParents (nodeIdsInLayer l L) ps R = Except.ok R' ∧
        EqExceptCenter L R' ∧ PlacedFor L l (S ++ ps) R'
  | [], S, R, _, hEC, hPl => ⟨R, rfl, hEC, by simpa using hPl⟩
  | p :: ps, S, R, hps, hEC, hPl => by
    have hlenLR : L.length = R.length := hEC.length_eq
    -- the group is computed from the current state but reads only
    -- center-invariant fields
    have hgroup : nodesInLayerPerParent (nodeIdsInLayer l L) R p =
        nodesInLayerPerParent (nodeIdsInLayer l L) L p := group_EC hEC _ p
    set g := nodesInLayerPerParent (nodeIdsInLayer l L) L p with hg
    have hsort : g.Pairwise (· < ·) := group_sorted l L p
    have hrangeR : ∀ i ∈ g, i < R.length := by
      intro i hi
      have := (group_mem l L p i).mp hi
      omega
    -- placing the group of `p` starting from its anchor
    have hplace : ∀ m, m = anchorOf L p →
        EqExceptCenter L (placeGroup g m R) ∧
          PlacedFor L l (S ++ [p]) (placeGroup g m R) := by
      intro m hm
      obtain ⟨hplen, hpout, hpmem⟩ := placeGroup_spec g m R hsort hrangeR
      constructor
      · exact hEC.trans (EC_placeGroup g m R)
      · intro i it hit
        by_cases hgi : i ∈ g
        · obtain ⟨hiL, hgrp⟩ := (group_mem l L p i).mp hgi
          obtain ⟨it1, hit1, hpl, hyl⟩ := (grpAt_iff L p l i).mp hgrp
          rw [hit] at hit1
          cases hit1
          obtain ⟨it', hit', hres⟩ := hpmem i hgi
          -- the record currently at i agrees with `it` except on the center
          have hPli := hPl i it hit
          rw [hit'] at hPli
          have he : eraseCenter it' = eraseCenter it := by
            have := Option.some.inj hPli
            by_cases hc : it.y_order = l ∧ it.parent ∈ S
            · rw [if_pos hc] at this
              rw [this]
              rfl
            · rw [if_neg hc] at this
              rw [this]
          rw [hres]
          have hcond : it.y_order = l ∧ it.parent ∈ S ++ [p] := by
            refine ⟨hyl, ?_⟩
            rw [hpl]
            simp
          rw [if_pos hcond]
          have hecfun : SyntreeLayout.ecAt R = SyntreeLayout.ecAt L :=
            funext hEC.ecAt
          have hsum : idxSum (g.filter (fun j => decide (j < i)))
              (SyntreeLayout.ecAt R) = precSum L p l i := by
            rw [hecfun, hg, group_precSum l L p i (by omega)]
          have hecit : it'.x_extent_children = it.x_extent_children :=
            (eraseCenter_fields he).2.2.2.1
          rw [eraseCenter_withCenter he, hsum, hecit]
          have hlc : m + precSum L p l i + it.x_extent_children / 2 =
              layerCenter L it.parent l i it.x_extent_children := by
            unfold layerCenter
            rw [hm, hpl]
          rw [hlc]
        · rw [hpout i hgi]
          have hPli := hPl i it hit
          rw [hPli]
          by_cases hc : it.y_order = l ∧ it.parent ∈ S
          · rw [if_pos hc, if_pos ⟨hc.1, by rw [List.mem_append]; exact Or.inl hc.2⟩]
          · have hc2 : ¬(it.y_order = l ∧ it.parent ∈ S ++ [p]) := by
              intro ⟨hy, hmem⟩
              rw [List.mem_append] at hmem
              rcases hmem with hmem | hmem
              · exact hc ⟨hy, hmem⟩
              · rw [List.mem_singleton] at hmem
                apply hgi
                rw [hg, group_mem]
                refine ⟨(List.getElem?_eq_some_iff.mp hit).1, ?_⟩
                rw [grpAt_iff]
                exact ⟨it, hit, hmem, hy⟩
            rw [if_neg hc, if_neg hc2]
    -- the loop step
    cases hp : p with
    | some q =>
      obtain ⟨qit, hqit, hqy⟩ := hps p (by simp) q hp
      have hRq : R[q]? = some qit := by
        have := hPl q qit hqit
        rw [if_neg (by intro ⟨h1, _⟩; exact hqy h1)] at this
        exact this
      have hanchor : qit.x_center - qit.x_extent_of_children / 2 =
          anchorOf L (some q) := by
        show qit.x_center - qit.x_extent_of_children / 2 =
          (match L[q]? with
            | some qit => qit.x_center - qit.x_extent_of_children / 2
            | none => 0)
        rw [hqit]
      obtain ⟨hEC1, hPl1⟩ := hplace (qit.x_center - qit.x_extent_of_children / 2)
        (by rw [hanchor, hp])
      obtain ⟨R', hrun, hEC', hPl'⟩ := processParents_spec L l ps (S ++ [p])
        (placeGroup g (qit.x_center - qit.x_extent_of_children / 2) R)
        (fun p' hp' => hps p' (List.mem_cons_of_mem p hp')) hEC1 hPl1
      refine ⟨R', ?_, hEC', ?_⟩
      · subst hp
        rw [processParents_cons, hgroup]
        show (match R[q]? with
          | some parentItem =>
            processParents (nodeIdsInLayer l L) ps
              (placeGroup g
                (parentItem.x_center - parentItem.x_extent_of_children / 2) R)
          | none => Except.error "Some item expected here!") = Except.ok R'
        rw [hRq]
        exact hrun
      · rw [hp] at hPl'
        simpa using hPl'
    | none =>
      obtain ⟨hEC1, hPl1⟩ := hplace 0 (by unfold anchorOf; rw [hp])
      obtain ⟨R', hrun, hEC', hPl'⟩ := processParents_spec L l ps (S ++ [p])
        (placeGroup g 0 R)
        (fun p' hp' => hps p' (List.mem_cons_of_mem p hp')) hEC1 hPl1
      refine ⟨R', ?_, hEC', ?_⟩
      · subst hp
        rw [processParents_cons, hgroup]
        show processParents (nodeIdsInLayer l L) ps (placeGroup g 0 R) =
          Except.ok R'
        exact hrun
      · rw [hp] at hPl'
        simpa using hPl'

theorem EqExceptCenter.symm {L R : List InternalNode}
    (h : EqExceptCenter L R) : EqExceptCenter R L := Eq.symm h

/-- One whole `x_center_layer` call: every record of the layer receives its
group center, everything else is untouched. -/
theorem xCenterLayer_spec (L : List InternalNode) (l : Nat)
    (HL : ∀ (i : Nat) (it : InternalNode), L[i]? = some it → it.y_order = l →
      ∀ q : Nat, it.parent = some q →
        ∃ qit : InternalNode, L[q]? = some qit ∧ qit.y_order ≠ l) :
    ∃ R, xCenterLayer l L = Except.ok R ∧ EqExceptCenter L R ∧
      ∀ (i : Nat) (it : InternalNode), L[i]? = some it →
        R[i]? = some (if it.y_order = l
          then { it with
            x_center := layerCenter L it.parent l i it.x_extent_children }
          else it) := by
  obtain ⟨ps, hps, hback, hfwd⟩ := parentsInLayer_ok (nodeIdsInLayer l L) L
    (fun i hi => by
      obtain ⟨it, hit, _⟩ := (ids_mem l L i).mp hi
      exact ⟨it, hit⟩)
  have hpsq : ∀ p ∈ ps, ∀ q : Nat, p = some q →
      ∃ qit : InternalNode, L[q]? = some qit ∧ qit.y_order ≠ l := by
    intro p hp q hq
    obtain ⟨i, it, hi, hit, hpar⟩ := hback p hp
    obtain ⟨it2, hit2, hy2⟩ := (ids_mem l L i).mp hi
    rw [hit] at hit2
    cases hit2
    exact HL i it hit hy2 q (by rw [hpar, hq])
  have hPl0 : PlacedFor L l [] L := by
    intro i it hit
    rw [if_neg (by intro ⟨_, hmem⟩; simp at hmem)]
    exact hit
  obtain ⟨R, hrun, hEC, hPl⟩ := processParents_spec L l ps [] L hpsq
    (EqExceptCenter.refl L) hPl0
  refine ⟨R, ?_, hEC, ?_⟩
  · show (match parentsInLayer (nodeIdsInLayer l L) L with
      | Except.error e => Except.error e
      | Except.ok ps => processParents (nodeIdsInLayer l L) ps L) = Except.ok R
    rw [hps]
    exact hrun
  · intro i it hit
    have hthis := hPl i it hit
    by_cases hy : it.y_order = l
    · have hmem : it.parent ∈ ps := hfwd i ((ids_mem l L i).mpr ⟨it, hit, hy⟩) it hit
      rw [if_pos ⟨hy, (by simpa using hmem : it.parent ∈ [] ++ ps)⟩] at hthis
      rw [if_pos hy]
      exact hthis
    · rw [if_neg (by intro ⟨h1, _⟩; exact hy h1)] at hthis
      rw [if_neg hy]
      exact hthis

/-- Parent lookups transported along a centers-only change. -/
theorem EC_parent_step {I0 R : List InternalNode} (hEC : EqExceptCenter I0 R)
    (HK : ∀ (i : Nat) (it : InternalNode) (q : Nat), I0[i]? = some it →
      it.parent = some q →
      ∃ qit : InternalNode, I0[q]? = some qit ∧ qit.y_order + 1 = it.y_order) :
    ∀ (i : Nat) (it : InternalNode) (q : Nat), R[i]? = some it →
      it.parent = some q →
      ∃ qit : InternalNode, R[q]? = some qit ∧ qit.y_order + 1 = it.y_order := by
  intro i it q hit hpar
  obtain ⟨it0, hit0, he0⟩ := hEC.symm.get hit
  obtain ⟨_, _, _, _, _, _, hp0, _⟩ := eraseCenter_fields he0
  obtain ⟨qit0, hqit0, hqy0⟩ := HK i it0 q hit0 (by rw [hp0, hpar])
  obtain ⟨qit, hqit, heq⟩ := hEC.get hqit0
  obtain ⟨hqy, _, _, _, _, _, _, _⟩ := eraseCenter_fields heq
  refine ⟨qit, hqit, ?_⟩
  rw [hqy, hqy0]
  exact (eraseCenter_fields he0).1.symm ▸ rfl

/-- The layer loop of `apply_x_center`, from layer `a` for `k` layers:
afterwards every record of a processed layer carries the centering formula,
read back from the final state. -/
theorem applyAux_spec (I0 : List InternalNode)
    (HK : ∀ (i : Nat) (it : InternalNode) (q : Nat), I0[i]? = some it →
      it.parent = some q →
      ∃ qit : InternalNode, I0[q]? = some qit ∧ qit.y_order + 1 = it.y_order) :
    ∀ (k a : Nat) (R : List InternalNode),
      EqExceptCenter I0 R →
      (∀ (i : Nat) (it : InternalNode), R[i]? = some it → it.y_order < a →
        it.x_center = layerCenter R it.parent it.y_order i it.x_extent_children) →
      ∃ R', applyXCenterAux (List.range' a k) R = Except.ok R' ∧
        EqExceptCenter I0 R' ∧
        (∀ (i : Nat) (it : InternalNode), R'[i]? = some it →
          it.y_order < a + k →
          it.x_center = layerCenter R' it.parent it.y_order i it.x_extent_children)
  | 0, a, R, hEC, hinv => ⟨R, rfl, hEC, fun i it hit hy => hinv i it hit (by omega)⟩
  | k + 1, a, R, hEC, hinv => by
    have HKR := EC_parent_step hEC HK
    obtain ⟨R1, hrunL, hECL, hform⟩ := xCenterLayer_spec R a
      (by
        intro i it hit hy q hpar
        obtain ⟨qit, hqit, hqy⟩ := HKR i it q hit hpar
        exact ⟨qit, hqit, by omega⟩)
    -- a record of the next state, traced back to the current state
    have hback : ∀ (i : Nat) (it' : InternalNode), R1[i]? = some it' →
        ∃ it : InternalNode, R[i]? = some it ∧
          it' = (if it.y_order = a
            then { it with
              x_center := layerCenter R it.parent a i it.x_extent_children }
            else it) := by
      intro i it' hit'
      obtain ⟨it, hit, _⟩ := hECL.symm.get hit'
      refine ⟨it, hit, ?_⟩
      have := hform i it hit
      rw [hit'] at this
      exact Option.some.inj this
    -- a parent record is never in the layer just processed, hence unchanged
    have hparent_same : ∀ (i : Nat) (it : InternalNode) (q : Nat),
        R[i]? = some it → it.parent = some q → it.y_order ≤ a →
        R1[q]? = R[q]? := by
      intro i it q hit hpar hylt
      obtain ⟨qit, hqit, hqy⟩ := HKR i it q hit hpar
      have := hform q qit hqit
      rw [if_neg (by omega)] at this
      rw [this, hqit]
    have hanchor_same : ∀ (i : Nat) (it : InternalNode),
        R[i]? = some it → it.y_order ≤ a →
        anchorOf R1 it.parent = anchorOf R it.parent := by
      intro i it hit hylt
      cases hpar : it.parent with
      | none => rfl
      | some q =>
        have hsame := hparent_same i it q hit hpar hylt
        show (match R1[q]? with
          | some qit => qit.x_center - qit.x_extent_of_children / 2
          | none => 0) =
          (match R[q]? with
          | some qit => qit.x_center - qit.x_extent_of_children / 2
          | none => 0)
        rw [hsame]
    have hnewinv : ∀ (i : Nat) (it' : InternalNode), R1[i]? = some it' →
        it'.y_order < a + 1 →
        it'.x_center = layerCenter R1 it'.parent it'.y_order i
          it'.x_extent_children := by
      intro i it' hit' hy'
      obtain ⟨it, hit, hdef⟩ := hback i it' hit'
      by_cases hy : it.y_order = a
      · rw [if_pos hy] at hdef
        subst hdef
        show layerCenter R it.parent a i it.x_extent_children =
          layerCenter R1 it.parent it.y_order i it.x_extent_children
        unfold layerCenter
        rw [hanchor_same i it hit (by omega), hECL.precSum, hy]
      · rw [if_neg hy] at hdef
        rw [hdef] at hy' ⊢
        have hylt : it.y_order < a := by omega
        have hold := hinv i it hit hylt
        rw [hold]
        unfold layerCenter
        rw [hanchor_same i it hit (by omega), hECL.precSum]
    obtain ⟨R', hrun', hEC', hinv'⟩ := applyAux_spec I0 HK k (a + 1) R1
      (hEC.trans hECL) hnewinv
    refine ⟨R', ?_, hEC', fun i it hit hy => hinv' i it hit (by omega)⟩
    rw [List.range'_succ, applyXCenterAux, hrunL]
    exact hrun'

/-- Fold bound for the height computation: the accumulator only grows. -/
theorem foldl_max_acc_le : ∀ (L : List InternalNode) (acc : Nat),
    acc ≤ L.foldl (fun a x => max a x.y_order) acc
  | [], _ => Nat.le_refl _
  | b :: L, acc => by
    simp only [List.foldl_cons]
    exact Nat.le_trans (Nat.le_max_left acc b.y_order) (foldl_max_acc_le L _)

/-- Fold bound for the height computation. -/
theorem foldl_max_ge :
    ∀ (L : List InternalNode) (acc : Nat) (i : Nat) (it : InternalNode),
      L[i]? = some it →
      it.y_order ≤ L.foldl (fun a x => max a x.y_order) acc
  | [], _, i, it, h => by simp at h
  | a :: L, acc, 0, it, h => by
    simp only [List.getElem?_cons_zero, Option.some.injEq] at h
    subst h
    simp only [List.foldl_cons]
    exact Nat.le_trans (Nat.le_max_right acc _) (foldl_max_acc_le L _)
  | a :: L, acc, i + 1, it, h => by
    simp only [List.getElem?_cons_succ] at h
    simp only [List.foldl_cons]
    exact foldl_max_ge L _ i it h

theorem maxYOrder_ge (L : List InternalNode) (i : Nat) (it : InternalNode)
    (h : L[i]? = some it) : it.y_order ≤ maxYOrder L :=
  foldl_max_ge L 0 i it h

/-! Sum comparison lemmas for the centering formula. -/

theorem precSum_succ (L : List InternalNode) (po : Option Nat) (y n : Nat) :
    precSum L po y (n + 1) =
      precSum L po y n + (if grpAt L po y n then ecAt L n else 0) := by
  unfold precSum
  rw [List.range_succ, List.filter_append, idxSum_append]
  congr 1
  cases h : grpAt L po y n <;> simp [h, idxSum]

theorem precSum_mono (L : List InternalNode) (po : Option Nat) (y : Nat) :
    ∀ {i j : Nat}, i ≤ j → precSum L po y i ≤ precSum L po y j := by
  intro i j hij
  induction j with
  | zero =>
    have : i = 0 := by omega
    subst this
    exact Nat.le_refl _
  | succ j ih =>
    by_cases hj : i ≤ j
    · have := ih hj
      rw [precSum_succ]
      by_cases h : grpAt L po y j = true <;> simp [h] <;> omega
    · have : i = j + 1 := by omega
      subst this
      exact Nat.le_refl _

theorem precSum_gap (L : List InternalNode) (po : Option Nat) (y i j : Nat)
    (hij : i < j) (hgrp : grpAt L po y i = true) :
    precSum L po y i + ecAt L i ≤ precSum L po y j := by
  have h1 : precSum L po y (i + 1) = precSum L po y i + ecAt L i := by
    rw [precSum_succ, if_pos hgrp]
  have h2 : precSum L po y (i + 1) ≤ precSum L po y j :=
    precSum_mono L po y (by omega)
  omega

theorem idxSum_congr {is : List Nat} {f g : Nat → Nat}
    (h : ∀ x ∈ is, f x = g x) : idxSum is f = idxSum is g := by
  unfold idxSum
  rw [List.map_congr_left h]

/-- The per-parent sum of `x_extent_children` as a sum over all positions. -/
theorem childEcSum_eq_range (L : List InternalNode) (q : Nat) :
    childEcSum L q =
      idxSum ((List.range L.length).filter (childAt L q)) (ecAt L) := by
  induction L using List.reverseRecOn with
  | nil => rfl
  | append_singleton M a ih =>
    rw [childEcSum_append]
    have hlen : (M ++ [a]).length = M.length + 1 := by simp
    rw [hlen, List.range_succ, List.filter_append, idxSum_append]
    have hA : childEcSum M q =
        idxSum ((List.range M.length).filter (childAt (M ++ [a]) q))
          (ecAt (M ++ [a])) := by
      rw [ih]
      have hfilter : (List.range M.length).filter (childAt (M ++ [a]) q) =
          (List.range M.length).filter (childAt M q) := by
        apply List.filter_congr
        intro j hj
        rw [List.mem_range] at hj
        unfold childAt
        rw [List.getElem?_append_left hj]
      rw [hfilter]
      apply idxSum_congr
      intro x hx
      rw [List.mem_filter, List.mem_range] at hx
      unfold ecAt
      rw [List.getElem?_append_left hx.1]
    have hB : childEcSum [a] q =
        idxSum (List.filter (childAt (M ++ [a]) q) [M.length]) (ecAt (M ++ [a])) := by
      have hat : childAt (M ++ [a]) q M.length = (a.parent == some q) := by
        unfold childAt
        rw [List.getElem?_concat_length]
      have hec : ecAt (M ++ [a]) M.length = a.x_extent_children := by
        unfold ecAt
        rw [List.getElem?_concat_length]
      by_cases hp : a.parent = some q
      · have hT : childAt (M ++ [a]) q M.length = true := by
          rw [hat]
          exact beq_iff_eq.mpr hp
        rw [List.filter_cons, if_pos hT]
        simp only [List.filter_nil, idxSum_cons, idxSum_nil, hec]
        rw [SyntreeLayout.childEcSum, if_pos hp]
        simp [SyntreeLayout.childEcSum]
      · have hF : childAt (M ++ [a]) q M.length = false := by
          rw [hat]
          exact beq_eq_false_iff_ne.mpr hp
        rw [List.filter_cons, if_neg (by rw [hF]; exact Bool.false_ne_true)]
        simp only [List.filter_nil, idxSum_nil]
        rw [SyntreeLayout.childEcSum, if_neg hp]
        simp [SyntreeLayout.childEcSum]
    rw [hA, hB]

/-- When every record pointing at `q` lies in layer `y`, the per-parent sum
coincides with the full prefix sum of `q`'s group. -/
theorem childEcSum_eq_precSum_len (L : List InternalNode) (q y : Nat)
    (hy : ∀ (j : Nat) (jt : InternalNode), L[j]? = some jt →
      jt.parent = some q → jt.y_order = y) :
    childEcSum L q = precSum L (some q) y L.length := by
  rw [childEcSum_eq_range]
  unfold precSum
  congr 1
  apply List.filter_congr
  intro j _
  cases hjt : L[j]? with
  | none =>
    unfold childAt grpAt
    rw [hjt]
  | some jt =>
    unfold childAt grpAt
    rw [hjt]
    show (jt.parent == some q) = (jt.parent == some q && jt.y_order == y)
    by_cases hp : jt.parent = some q
    · have hyj := hy j jt hjt hp
      simp [hp, hyj]
    · simp [hp]

/-- `apply_x_center` characterized: it succeeds, changes only centers, and
afterwards every record carries the centering formula. -/
theorem applyXCenter_spec (I0 : List InternalNode)
    (HK : ∀ (i : Nat) (it : InternalNode) (q : Nat), I0[i]? = some it →
      it.parent = some q →
      ∃ qit : InternalNode, I0[q]? = some qit ∧ qit.y_order + 1 = it.y_order) :
    ∃ I, applyXCenter I0 = Except.ok I ∧ EqExceptCenter I0 I ∧
      ∀ (i : Nat) (it : InternalNode), I[i]? = some it →
        it.x_center = layerCenter I it.parent it.y_order i
          it.x_extent_children := by
  obtain ⟨I, hrun, hEC, hinv⟩ := applyAux_spec I0 HK (maxYOrder I0 + 1) 0 I0
    (EqExceptCenter.refl I0) (fun i it _ hy => absurd hy (by omega))
  refine ⟨I, ?_, hEC, ?_⟩
  · unfold applyXCenter
    rw [List.range_eq_range']
    exact hrun
  · intro i it hit
    apply hinv i it hit
    obtain ⟨it0, hit0, he0⟩ := hEC.symm.get hit
    have hy0 : it0.y_order = it.y_order := (eraseCenter_fields he0).1
    have := maxYOrder_ge I0 i it0 hit0
    omega

/-! Characterization of a whole successful run. -/

/-- Stages A and B composed, over the full forest. -/
theorem stageAB_eq {T : Type} (s : T → String) (e : T → Bool)
    (roots : List (STree T)) :
    applyChildrenXExtentsList roots 0 (buildItemsList s e roots 0 0 none) =
      itemsABList s e roots 0 0 none := by
  have h := applyB_buildItemsList s e roots 0 0 none [] [] rfl
  simpa using h

/-- Parent pointers of the stage-AB vector: strictly smaller position, one
layer up. -/
theorem K1_final {T : Type} (s : T → String) (e : T → Bool)
    (roots : List (STree T)) :
    ∀ (i : Nat) (it : InternalNode) (q : Nat),
      (itemsABList s e roots 0 0 none)[i]? = some it → it.parent = some q →
      q < i ∧ ∃ qit : InternalNode,
        (itemsABList s e roots 0 0 none)[q]? = some qit ∧
        qit.y_order + 1 = it.y_order := by
  intro i it q hit hq
  rcases parent_itemsABList s e roots 0 0 none i it hit with
    ⟨hp, _⟩ | ⟨q', qit, hp, _, hq2, hget, hy⟩
  · rw [hq] at hp
    cases hp
  · rw [hq] at hp
    have hqq : q = q' := Option.some.inj hp
    subst hqq
    rw [Nat.sub_zero] at hget
    exact ⟨by omega, qit, hget, hy⟩

/-- A successful `embedItems` run only changes centers relative to the
stage-AB vector, and every final record carries the centering formula. -/
theorem embedItems_master {T : Type} (s : T → String) (e : T → Bool)
    (roots : List (STree T)) (I : List InternalNode)
    (h : embedItems s e roots = Except.ok I) :
    EqExceptCenter (itemsABList s e roots 0 0 none) I ∧
    ∀ (i : Nat) (it : InternalNode), I[i]? = some it →
      it.x_center = layerCenter I it.parent it.y_order i
        it.x_extent_children := by
  by_cases hlen : roots.length > 1
  · exfalso
    unfold embedItems createInitialEmbeddingData at h
    rw [if_pos hlen] at h
    cases h
  · have hinit : createInitialEmbeddingData s e roots =
        Except.ok (buildItemsList s e roots 0 0 none) := by
      unfold createInitialEmbeddingData
      rw [if_neg hlen]
    have hchain : embedItems s e roots =
        applyXCenter (itemsABList s e roots 0 0 none) := by
      unfold embedItems
      rw [hinit]
      show applyXCenter (applyChildrenXExtentsList roots 0
        (buildItemsList s e roots 0 0 none)) = _
      rw [stageAB_eq]
    rw [hchain] at h
    obtain ⟨I', hrun, hEC, hform⟩ :=
      applyXCenter_spec (itemsABList s e roots 0 0 none)
        (fun i it q hit hq => (K1_final s e roots i it q hit hq).2)
    rw [hrun] at h
    injection h with h
    subst h
    exact ⟨hEC, hform⟩

/-- A successful `embed` run factors through `embedItems`. -/
theorem embed_inv {T : Type} (s : T → String) (e : T → Bool)
    (roots : List (STree T)) (out : List EmbeddedNode)
    (h : embed s e roots = Except.ok out) :
    ∃ I, embedItems s e roots = Except.ok I ∧ out = transferResult I := by
  unfold embed at h
  cases hI : embedItems s e roots with
  | error msg =>
    rw [hI] at h
    cases h
  | ok I =>
    rw [hI] at h
    injection h with h
    exact ⟨I, rfl, h.symm⟩

/-- Reading one record of the projected output. -/
theorem transfer_get {I : List InternalNode} {i : Nat} {a : EmbeddedNode}
    (h : (transferResult I)[i]? = some a) :
    ∃ ia, I[i]? = some ia ∧ InternalNode.toEmbedded ia = a := by
  unfold transferResult at h
  rw [List.getElem?_map] at h
  cases hI : I[i]? with
  | none =>
    rw [hI] at h
    cases h
  | some ia =>
    rw [hI] at h
    exact ⟨ia, rfl, Option.some.inj h⟩

/-- Parent pointers of the final records. -/
theorem final_parent {T : Type} (s : T → String) (e : T → Bool)
    (roots : List (STree T)) (I : List InternalNode)
    (hEC : EqExceptCenter (itemsABList s e roots 0 0 none) I) :
    ∀ (i : Nat) (it : InternalNode) (q : Nat), I[i]? = some it →
      it.parent = some q →
      q < i ∧ ∃ qit : InternalNode, I[q]? = some qit ∧
        qit.y_order + 1 = it.y_order := by
  intro i it q hit hq
  obtain ⟨it0, hit0, he0⟩ := hEC.symm.get hit
  obtain ⟨hy0, _, _, _, _, _, hp0, _⟩ := eraseCenter_fields he0
  obtain ⟨hqi, qit0, hqit0, hqy0⟩ := K1_final s e roots i it0 q hit0
    (by rw [hp0, hq])
  obtain ⟨qit, hqit, heq⟩ := hEC.get hqit0
  have hyq : qit.y_order = qit0.y_order := (eraseCenter_fields heq).1
  exact ⟨hqi, qit, hqit, by omega⟩

/-- Width and text facts about the final records. -/
theorem final_fields {T : Type} (s : T → String) (e : T → Bool)
    (roots : List (STree T)) (I : List InternalNode)
    (hEC : EqExceptCenter (itemsABList s e roots 0 0 none) I) :
    ∀ (i : Nat) (it : InternalNode), I[i]? = some it →
      it.x_extent = it.text.utf8ByteSize + 1 ∧ 1 ≤ it.x_extent ∧
      it.x_extent ≤ it.x_extent_children ∧
      it.x_extent_of_children ≤ it.x_extent_children ∧
      (∃ v, it.text = s v ∧ it.is_emphasized = e v) ∧ it.ord = i := by
  intro i it hit
  obtain ⟨it0, hit0, he0⟩ := hEC.symm.get hit
  have hmem : it0 ∈ itemsABList s e roots 0 0 none := List.getElem?_mem hit0
  obtain ⟨⟨v, hv, hemph⟩, hxe, h1, h2, h3⟩ :=
    mem_itemsABList s e roots 0 0 none it0 hmem
  have hordeq := ord_itemsABList s e roots 0 0 none i it0 hit0
  obtain ⟨hy, hxe', hxeoc', hec', htext, hemph', hpar, hord⟩ :=
    eraseCenter_fields he0
  refine ⟨?_, by omega, by omega, by omega, ⟨v, ?_, ?_⟩, by omega⟩
  · rw [← hxe', ← htext]
    exact hxe
  · rw [← htext]
    exact hv
  · rw [← hemph']
    exact hemph

/-- The per-parent sum over the final records is either 0 or the parent's
`x_extent_of_children`. -/
theorem final_childsum {T : Type} (s : T → String) (e : T → Bool)
    (roots : List (STree T)) (I : List InternalNode)
    (hEC : EqExceptCenter (itemsABList s e roots 0 0 none) I) :
    ∀ (i : Nat) (it : InternalNode), I[i]? = some it →
      childEcSum I i = 0 ∨ childEcSum I i = it.x_extent_of_children := by
  intro i it hit
  obtain ⟨it0, hit0, he0⟩ := hEC.symm.get hit
  have h := childEcSum_at_itemsABList s e roots 0 0 none i it0 hit0
    (by intro q' hq'; cases hq')
  rw [Nat.zero_add] at h
  rw [hEC.childEcSum i]
  rcases h with h | h
  · exact Or.inl h
  · right
    rw [h]
    exact (eraseCenter_fields he0).2.2.1

/-- Every final record is either leaf-shaped or has a record pointing at
it. -/
theorem final_leafOrChild {T : Type} (s : T → String) (e : T → Bool)
    (roots : List (STree T)) (I : List InternalNode)
    (hEC : EqExceptCenter (itemsABList s e roots 0 0 none) I) :
    ∀ (i : Nat) (it : InternalNode), I[i]? = some it →
      (it.x_extent_of_children = it.x_extent ∧
        it.x_extent_children = it.x_extent) ∨
      ∃ (j : Nat) (jt : InternalNode), I[j]? = some jt ∧
        jt.parent = some i := by
  intro i it hit
  obtain ⟨it0, hit0, he0⟩ := hEC.symm.get hit
  rcases leafOrChild_itemsABList s e roots 0 0 none i it0 hit0 with
    ⟨hA, hB⟩ | ⟨j, jt, hj, hjp⟩
  · left
    obtain ⟨_, hxe', hxeoc', hec', _, _, _, _⟩ := eraseCenter_fields he0
    constructor
    · rw [← hxe', ← hxeoc']
      exact hA
    · rw [← hxe', ← hec']
      exact hB
  · right
    obtain ⟨jt', hjt', hej⟩ := hEC.get hj
    refine ⟨j, jt', hjt', ?_⟩
    rw [(eraseCenter_fields hej).2.2.2.2.2.2.1, hjp]
    rw [Nat.zero_add]

/-- Every final record's center covers half its children span: the unsigned
anchor subtraction of the next layer never underflows. -/
theorem final_center_ge {T : Type} (s : T → String) (e : T → Bool)
    (roots : List (STree T)) (I : List InternalNode)
    (hEC : EqExceptCenter (itemsABList s e roots 0 0 none) I)
    (hform : ∀ (i : Nat) (it : InternalNode), I[i]? = some it →
      it.x_center = layerCenter I it.parent it.y_order i
        it.x_extent_children) :
    ∀ (i : Nat) (it : InternalNode), I[i]? = some it →
      it.x_extent_of_children / 2 ≤ it.x_center := by
  intro i it hit
  have h := hform i it hit
  obtain ⟨_, _, _, hle, _, _⟩ := final_fields s e roots I hEC i it hit
  have hdiv : it.x_extent_of_children / 2 ≤ it.x_extent_children / 2 :=
    Nat.div_le_div_right hle
  rw [h]
  unfold layerCenter
  omega

/-! The claims. -/

/-- Claim C1: embedding the five-node tree `0 → {1 → {3, 4}, 2}`, where
every node's text is its single-character numeral (so `x_extent = 2` for
each), produces exactly the five records
`0: ord=0, y_order=0, x_center=3, x_extent=2, x_extent_children=6`;
`1: ord=1, y_order=1, x_center=2, x_extent=2, x_extent_children=4`;
`3: ord=2, y_order=2, x_center=1, x_extent=2, x_extent_children=2`;
`4: ord=3, y_order=2, x_center=3, x_extent=2, x_extent_children=2`;
`2: ord=4, y_order=1, x_center=5, x_extent=2, x_extent_children=2`. -/
theorem claim1_five_node_tree :
    embed (fun t : String => t) (fun _ => false)
      [STree.node "0" [STree.node "1" [STree.node "3" [], STree.node "4" []],
        STree.node "2" []]] =
    Except.ok
      [EmbeddedNode.mk 0 3 2 6 "0" false none 0,
        EmbeddedNode.mk 1 2 2 4 "1" false (some 0) 1,
        EmbeddedNode.mk 2 1 2 2 "3" false (some 1) 2,
        EmbeddedNode.mk 2 3 2 2 "4" false (some 1) 3,
        EmbeddedNode.mk 1 5 2 2 "2" false (some 0) 4] := rfl

/-- Claim C2, counterexample: with a stringify capability producing the
one-character text `"ä"` (two UTF-8 bytes), the produced record has
`x_extent = 3`, not `character_count(text) + 1 = 2`: the code computes
`x_extent` from the Rust byte length `text.len()`, not the character
count. -/
theorem claim2_counterexample :
    embed (fun t : String => t) (fun _ => false) [STree.node "ä" []] =
      Except.ok [EmbeddedNode.mk 0 1 3 3 "ä" false none 0] ∧
    ("ä" : String).length + 1 = 2 ∧ ¬ ((3 : Nat) = 2) :=
  ⟨rfl, by decide, by decide⟩

/-- Claim C2, amended: for every node of the input tree, the embedding
assigns the record's `x_extent` field the value
`utf8_byte_count(text) + 1` — equal to `character_count(text) + 1` exactly
when the text is ASCII — where `text` is the string produced by the
stringify capability for that node. -/
theorem claim2_x_extent_byte_count {T : Type} (s : T → String) (e : T → Bool)
    (roots : List (STree T)) (out : List EmbeddedNode)
    (hemb : embed s e roots = Except.ok out) :
    ∀ (i : Nat) (a : EmbeddedNode), out[i]? = some a →
      a.x_extent = a.text.utf8ByteSize + 1 ∧ ∃ v, a.text = s v := by
  obtain ⟨I, hI, hout⟩ := embed_inv s e roots out hemb
  obtain ⟨hEC, _⟩ := embedItems_master s e roots I hI
  intro i a ha
  rw [hout] at ha
  obtain ⟨ia, hia, hta⟩ := transfer_get ha
  obtain ⟨h1, _, _, _, ⟨v, hv, _⟩, _⟩ := final_fields s e roots I hEC i ia hia
  subst hta
  exact ⟨h1, v, hv⟩

/-- Witness for the amended claim C2, at the one-node tree with text
`"ä"`. -/
theorem claim2_witness :
    (EmbeddedNode.mk 0 1 3 3 "ä" false none 0).x_extent =
      (EmbeddedNode.mk 0 1 3 3 "ä" false none 0).text.utf8ByteSize + 1 ∧
    ∃ v, (EmbeddedNode.mk 0 1 3 3 "ä" false none 0).text =
      (fun t : String => t) v :=
  claim2_x_extent_byte_count (fun t : String => t) (fun _ => false)
    [STree.node "ä" []] [EmbeddedNode.mk 0 1 3 3 "ä" false none 0] rfl
    0 (EmbeddedNode.mk 0 1 3 3 "ä" false none 0) rfl

/-- Claim C3, counterexample: after the extent-aggregation stage on the
one-node tree with text `"0"`, the childless root's record has
`x_extent_of_children = 2` (its initial `x_extent`), not 0: a childless
node is never updated by the `Event::Up` fold and keeps the initialization
`x_extent_of_children = x_extent` from `create_from_node`. -/
theorem claim3_counterexample :
    applyChildrenXExtentsList [STree.node "0" []] 0
      (buildItemsList (fun t : String => t) (fun _ => false)
        [STree.node "0" []] 0 0 none) =
      [InternalNode.mk 0 0 2 2 2 "0" false none 0] ∧
    ¬ ((2 : Nat) = 0) := ⟨rfl, by decide⟩

/-- Claim C3, amended: after the extent-aggregation stage, every childless
node's record retains `x_extent_of_children` equal to its own `x_extent`
(the initialization value — not 0), and its `x_extent_children` equals its
`x_extent`. -/
theorem claim3_leaf_extents {T : Type} (s : T → String) (e : T → Bool)
    (roots : List (STree T)) :
    ∀ (i : Nat) (it : InternalNode),
      (applyChildrenXExtentsList roots 0
        (buildItemsList s e roots 0 0 none))[i]? = some it →
      (∀ (j : Nat) (jt : InternalNode),
        (applyChildrenXExtentsList roots 0
          (buildItemsList s e roots 0 0 none))[j]? = some jt →
        jt.parent ≠ some i) →
      it.x_extent_of_children = it.x_extent ∧
        it.x_extent_children = it.x_extent := by
  rw [stageAB_eq]
  intro i it hit hnone
  rcases leafOrChild_itemsABList s e roots 0 0 none i it hit with
    h | ⟨j, jt, hj, hjp⟩
  · exact h
  · rw [Nat.zero_add] at hjp
    exact absurd hjp (hnone j jt hj)

/-- Witness for the amended claim C3, at the one-node tree. -/
theorem claim3_witness :
    (InternalNode.mk 0 0 2 2 2 "0" false none 0).x_extent_of_children =
      (InternalNode.mk 0 0 2 2 2 "0" false none 0).x_extent ∧
    (InternalNode.mk 0 0 2 2 2 "0" false none 0).x_extent_children =
      (InternalNode.mk 0 0 2 2 2 "0" false none 0).x_extent :=
  claim3_leaf_extents (fun t : String => t) (fun _ => false)
    [STree.node "0" []] 0 (InternalNode.mk 0 0 2 2 2 "0" false none 0) rfl
    (by
      intro j jt hjt hpar
      have hL : applyChildrenXExtentsList [STree.node "0" []] 0
          (buildItemsList (fun t : String => t) (fun _ => false)
            [STree.node "0" []] 0 0 none) =
          [InternalNode.mk 0 0 2 2 2 "0" false none 0] := rfl
      rw [hL] at hjt
      match j with
      | 0 =>
        simp only [List.getElem?_cons_zero, Option.some.injEq] at hjt
        rw [← hjt] at hpar
        exact absurd hpar (by decide)
      | j + 1 => simp at hjt)

/-- Claim C4: for every input tree with two or more top-level nodes, the
embed operation fails with the multiple-roots error; the failure arises
already in `create_initial_embedding_data`, before any record is built, and
no output collection is produced. -/
theorem claim4_multiple_roots {T : Type} (s : T → String) (e : T → Bool)
    (roots : List (STree T)) (h : 2 ≤ roots.length) :
    createInitialEmbeddingData s e roots =
        Except.error "Currently we support only one root" ∧
      embed s e roots =
        Except.error "Currently we support only one root" := by
  have hinit : createInitialEmbeddingData s e roots =
      Except.error "Currently we support only one root" := by
    unfold createInitialEmbeddingData
    rw [if_pos (by omega)]
  refine ⟨hinit, ?_⟩
  unfold embed embedItems
  rw [hinit]

/-- Witness for claim C4, at a two-root forest. -/
theorem claim4_witness :
    createInitialEmbeddingData (fun t : String => t) (fun _ => false)
        [STree.node "0" [], STree.node "1" []] =
      Except.error "Currently we support only one root" ∧
    embed (fun t : String => t) (fun _ => false)
        [STree.node "0" [], STree.node "1" []] =
      Except.error "Currently we support only one root" :=
  claim4_multiple_roots (fun t : String => t) (fun _ => false)
    [STree.node "0" [], STree.node "1" []] (by decide)

/-- Claim C5: embedding a tree with zero nodes succeeds and produces an
empty output collection. -/
theorem claim5_empty_tree {T : Type} (s : T → String) (e : T → Bool) :
    embed s e ([] : List (STree T)) = Except.ok [] := rfl

/-- Claim C6: in every output collection of a successful embedding, for all
sibling pairs `(a, b)` in left-to-right order sharing the same parent,
`a.x_center + a.x_extent_children / 2 ≤ b.x_center - b.x_extent_children / 2`. -/
theorem claim6_no_overlap {T : Type} (s : T → String) (e : T → Bool)
    (roots : List (STree T)) (out : List EmbeddedNode)
    (hemb : embed s e roots = Except.ok out)
    (i j : Nat) (hij : i < j) (a b : EmbeddedNode)
    (ha : out[i]? = some a) (hb : out[j]? = some b)
    (p : Nat) (hpa : a.parent = some p) (hpb : b.parent = some p) :
    a.x_center + a.x_extent_children / 2 ≤
      b.x_center - b.x_extent_children / 2 := by
  obtain ⟨I, hI, hout⟩ := embed_inv s e roots out hemb
  obtain ⟨hEC, hform⟩ := embedItems_master s e roots I hI
  rw [hout] at ha hb
  obtain ⟨ia, hia, hta⟩ := transfer_get ha
  obtain ⟨ib, hib, htb⟩ := transfer_get hb
  have hpa' : ia.parent = some p := by rw [← hpa, ← hta]; rfl
  have hpb' : ib.parent = some p := by rw [← hpb, ← htb]; rfl
  obtain ⟨-, qa, hqa, hya⟩ := final_parent s e roots I hEC i ia p hia hpa'
  obtain ⟨-, qb, hqb, hyb⟩ := final_parent s e roots I hEC j ib p hib hpb'
  rw [hqa] at hqb
  injection hqb with hqq
  subst hqq
  have hyy : ia.y_order = ib.y_order := by omega
  have hca := hform i ia hia
  have hcb := hform j ib hib
  unfold layerCenter at hca hcb
  rw [hpa'] at hca
  rw [hpb', ← hyy] at hcb
  have hgrp : grpAt I (some p) ia.y_order i = true :=
    (grpAt_iff I (some p) ia.y_order i).mpr ⟨ia, hia, hpa', rfl⟩
  have hgap := precSum_gap I (some p) ia.y_order i j hij hgrp
  have heci : ecAt I i = ia.x_extent_children := by
    unfold ecAt
    rw [hia]
  rw [heci] at hgap
  have hac : a.x_center = ia.x_center := by rw [← hta]; rfl
  have haec : a.x_extent_children = ia.x_extent_children := by rw [← hta]; rfl
  have hbc : b.x_center = ib.x_center := by rw [← htb]; rfl
  have hbec : b.x_extent_children = ib.x_extent_children := by rw [← htb]; rfl
  rw [hac, haec, hbc, hbec, hca, hcb]
  omega

/-- Witness for claim C6, at the adjacent siblings `3` and `4` of the
five-node tree. -/
theorem claim6_witness :
    (EmbeddedNode.mk 2 1 2 2 "3" false (some 1) 2).x_center +
      (EmbeddedNode.mk 2 1 2 2 "3" false (some 1) 2).x_extent_children / 2 ≤
    (EmbeddedNode.mk 2 3 2 2 "4" false (some 1) 3).x_center -
      (EmbeddedNode.mk 2 3 2 2 "4" false (some 1) 3).x_extent_children / 2 :=
  claim6_no_overlap (fun t : String => t) (fun _ => false)
    [STree.node "0" [STree.node "1" [STree.node "3" [], STree.node "4" []],
      STree.node "2" []]]
    [EmbeddedNode.mk 0 3 2 6 "0" false none 0,
      EmbeddedNode.mk 1 2 2 4 "1" false (some 0) 1,
      EmbeddedNode.mk 2 1 2 2 "3" false (some 1) 2,
      EmbeddedNode.mk 2 3 2 2 "4" false (some 1) 3,
      EmbeddedNode.mk 1 5 2 2 "2" false (some 0) 4] rfl
    2 3 (by decide)
    (EmbeddedNode.mk 2 1 2 2 "3" false (some 1) 2)
    (EmbeddedNode.mk 2 3 2 2 "4" false (some 1) 3) rfl rfl 1 rfl rfl

/-- Claim C7: in the records of a successful embedding, every non-root
record's `x_center` lies within
`[parent.x_center - parent.x_extent_of_children / 2,
parent.x_center + parent.x_extent_of_children / 2]` (the
`x_extent_of_children` field lives on the internal records, before the
projection drops it). -/
theorem claim7_centering {T : Type} (s : T → String) (e : T → Bool)
    (roots : List (STree T)) (I : List InternalNode)
    (hemb : embedItems s e roots = Except.ok I)
    (i : Nat) (it : InternalNode) (hit : I[i]? = some it)
    (q : Nat) (hq : it.parent = some q) :
    ∃ qit : InternalNode, I[q]? = some qit ∧
      qit.x_center - qit.x_extent_of_children / 2 ≤ it.x_center ∧
      it.x_center ≤ qit.x_center + qit.x_extent_of_children / 2 := by
  obtain ⟨hEC, hform⟩ := embedItems_master s e roots I hemb
  obtain ⟨hqi, qit, hqit, hqy⟩ := final_parent s e roots I hEC i it q hit hq
  have hanch : anchorOf I (some q) =
      qit.x_center - qit.x_extent_of_children / 2 := by
    show (match I[q]? with
      | some x => x.x_center - x.x_extent_of_children / 2
      | none => 0) = _
    rw [hqit]
  have hy_all : ∀ (j' : Nat) (jt : InternalNode), I[j']? = some jt →
      jt.parent = some q → jt.y_order = it.y_order := by
    intro j' jt hjt hjp
    obtain ⟨-, qit2, hqit2, hqy2⟩ := final_parent s e roots I hEC j' jt q hjt hjp
    rw [hqit] at hqit2
    injection hqit2 with h2
    subst h2
    omega
  have hT : childEcSum I q = precSum I (some q) it.y_order I.length :=
    childEcSum_eq_precSum_len I q it.y_order hy_all
  have hsum := final_childsum s e roots I hEC q qit hqit
  have hlower := childEcSum_lower I q i it hit hq
  obtain ⟨-, hxe1, hxeec, -, -, -⟩ := final_fields s e roots I hEC i it hit
  have hTq : childEcSum I q = qit.x_extent_of_children := by
    rcases hsum with h | h
    · omega
    · exact h
  have hgrp : grpAt I (some q) it.y_order i = true :=
    (grpAt_iff I (some q) it.y_order i).mpr ⟨it, hit, hq, rfl⟩
  have hilen : i < I.length := (List.getElem?_eq_some_iff.mp hit).1
  have hgap := precSum_gap I (some q) it.y_order i I.length hilen hgrp
  have heci : ecAt I i = it.x_extent_children := by
    unfold ecAt
    rw [hit]
  rw [heci] at hgap
  have hcge := final_center_ge s e roots I hEC hform q qit hqit
  have hc := hform i it hit
  unfold layerCenter at hc
  rw [hq, hanch] at hc
  exact ⟨qit, hqit, by omega, by omega⟩

/-- Witness for claim C7, at node `3` (position 2, parent position 1) of
the five-node tree. -/
theorem claim7_witness :
    ∃ qit : InternalNode,
      ([InternalNode.mk 0 3 2 6 6 "0" false none 0,
        InternalNode.mk 1 2 2 4 4 "1" false (some 0) 1,
        InternalNode.mk 2 1 2 2 2 "3" false (some 1) 2,
        InternalNode.mk 2 3 2 2 2 "4" false (some 1) 3,
        InternalNode.mk 1 5 2 2 2 "2" false (some 0) 4] :
          List InternalNode)[1]? = some qit ∧
      qit.x_center - qit.x_extent_of_children / 2 ≤ 1 ∧
      1 ≤ qit.x_center + qit.x_extent_of_children / 2 :=
  claim7_centering (fun t : String => t) (fun _ => false)
    [STree.node "0" [STree.node "1" [STree.node "3" [], STree.node "4" []],
      STree.node "2" []]]
    [InternalNode.mk 0 3 2 6 6 "0" false none 0,
      InternalNode.mk 1 2 2 4 4 "1" false (some 0) 1,
      InternalNode.mk 2 1 2 2 2 "3" false (some 1) 2,
      InternalNode.mk 2 3 2 2 2 "4" false (some 1) 3,
      InternalNode.mk 1 5 2 2 2 "2" false (some 0) 4] rfl
    2 (InternalNode.mk 2 1 2 2 2 "3" false (some 1) 2) rfl 1 rfl

/-- Claim C8: the embedding is deterministic — running it twice on the same
tree with the same stringify and emphasize capabilities produces identical
output collections; there is no cross-invocation state. -/
theorem claim8_deterministic {T : Type} (s1 s2 : T → String)
    (e1 e2 : T → Bool) (r1 r2 : List (STree T))
    (hs : s1 = s2) (he : e1 = e2) (hr : r1 = r2) :
    embed s1 e1 r1 = embed s2 e2 r2 := by
  rw [hs, he, hr]

/-- Witness for claim C8. -/
theorem claim8_witness :
    embed (fun t : String => t) (fun _ => false) [STree.node "0" []] =
      embed (fun t : String => t) (fun _ => false) [STree.node "0" []] :=
  claim8_deterministic (fun t : String => t) (fun t : String => t)
    (fun _ => false) (fun _ => false) [STree.node "0" []] [STree.node "0" []]
    rfl rfl rfl

/-- Claim C9: in every output collection of a successful embedding, every
record with a `parent` field points at a record whose `ord` is strictly
smaller and whose `y_order` is strictly smaller. -/
theorem claim9_ordering {T : Type} (s : T → String) (e : T → Bool)
    (roots : List (STree T)) (out : List EmbeddedNode)
    (hemb : embed s e roots = Except.ok out) :
    ∀ (j : Nat) (b : EmbeddedNode), out[j]? = some b →
      ∀ q : Nat, b.parent = some q →
        ∃ a : EmbeddedNode, out[q]? = some a ∧ a.ord < b.ord ∧
          a.y_order < b.y_order := by
  obtain ⟨I, hI, hout⟩ := embed_inv s e roots out hemb
  obtain ⟨hEC, -⟩ := embedItems_master s e roots I hI
  intro j b hb q hbq
  rw [hout] at hb ⊢
  obtain ⟨ib, hib, htb⟩ := transfer_get hb
  have hbq' : ib.parent = some q := by rw [← hbq, ← htb]; rfl
  obtain ⟨hqj, qit, hqit, hqy⟩ := final_parent s e roots I hEC j ib q hib hbq'
  have hqa : (transferResult I)[q]? = some (InternalNode.toEmbedded qit) := by
    unfold transferResult
    rw [List.getElem?_map, hqit]
    rfl
  have hordq := (final_fields s e roots I hEC q qit hqit).2.2.2.2.2
  have hordj := (final_fields s e roots I hEC j ib hib).2.2.2.2.2
  refine ⟨InternalNode.toEmbedded qit, hqa, ?_, ?_⟩
  · rw [← htb]
    show qit.ord < ib.ord
    omega
  · rw [← htb]
    show qit.y_order < ib.y_order
    omega

/-- Witness for claim C9, at node `1` (position 1, parent position 0) of
the five-node tree. -/
theorem claim9_witness :
    ∃ a : EmbeddedNode,
      ([EmbeddedNode.mk 0 3 2 6 "0" false none 0,
        EmbeddedNode.mk 1 2 2 4 "1" false (some 0) 1,
        EmbeddedNode.mk 2 1 2 2 "3" false (some 1) 2,
        EmbeddedNode.mk 2 3 2 2 "4" false (some 1) 3,
        EmbeddedNode.mk 1 5 2 2 "2" false (some 0) 4] :
          List EmbeddedNode)[0]? = some a ∧
      a.ord < (EmbeddedNode.mk 1 2 2 4 "1" false (some 0) 1).ord ∧
      a.y_order < (EmbeddedNode.mk 1 2 2 4 "1" false (some 0) 1).y_order :=
  claim9_ordering (fun t : String => t) (fun _ => false)
    [STree.node "0" [STree.node "1" [STree.node "3" [], STree.node "4" []],
      STree.node "2" []]]
    [EmbeddedNode.mk 0 3 2 6 "0" false none 0,
      EmbeddedNode.mk 1 2 2 4 "1" false (some 0) 1,
      EmbeddedNode.mk 2 1 2 2 "3" false (some 1) 2,
      EmbeddedNode.mk 2 3 2 2 "4" false (some 1) 3,
      EmbeddedNode.mk 1 5 2 2 "2" false (some 0) 4] rfl
    1 (EmbeddedNode.mk 1 2 2 4 "1" false (some 0) 1) rfl 0 rfl

/-- Claim C10: in the records of a successful embedding, every record
satisfies `x_extent_of_children / 2 ≤ x_center`, so the unsigned anchor
subtraction `x_center - x_extent_of_children / 2` of the centering pass
never underflows. -/
theorem claim10_no_underflow {T : Type} (s : T → String) (e : T → Bool)
    (roots : List (STree T)) (I : List InternalNode)
    (hemb : embedItems s e roots = Except.ok I) :
    ∀ (i : Nat) (it : InternalNode), I[i]? = some it →
      it.x_extent_of_children / 2 ≤ it.x_center := by
  obtain ⟨hEC, hform⟩ := embedItems_master s e roots I hemb
  exact final_center_ge s e roots I hEC hform

/-- Witness for claim C10, at the root of the five-node tree. -/
theorem claim10_witness :
    (InternalNode.mk 0 3 2 6 6 "0" false none 0).x_extent_of_children / 2 ≤
      (InternalNode.mk 0 3 2 6 6 "0" false none 0).x_center :=
  claim10_no_underflow (fun t : String => t) (fun _ => false)
    [STree.node "0" [STree.node "1" [STree.node "3" [], STree.node "4" []],
      STree.node "2" []]]
    [InternalNode.mk 0 3 2 6 6 "0" false none 0,
      InternalNode.mk 1 2 2 4 4 "1" false (some 0) 1,
      InternalNode.mk 2 1 2 2 2 "3" false (some 1) 2,
      InternalNode.mk 2 3 2 2 2 "4" false (some 1) 3,
      InternalNode.mk 1 5 2 2 2 "2" false (some 0) 4] rfl
    0 (InternalNode.mk 0 3 2 6 6 "0" false none 0) rfl

end SyntreeLayout
